import Mathlib

/-!
# Verification of the OpenAPI-Job schema enrichment engine (`parse.js`)

This development is a shallow embedding of the enrichment engine and CLI
configuration logic of `parse.js` (the variant with `PropertyError` and
`hasOwnProperty`-based structural checking), together with proofs of the
specification's testable properties.

Modelling conventions:

* JavaScript values are modelled by the inductive type `JValue`.  JS
  `undefined` is the constructor `JValue.undefined`; numbers are modelled as
  integers (no numeric claim depends on floats).  Documents are trees:
  JSON parsing never produces aliasing, so in-place mutation of a
  sub-object is modelled by functional update along the access path.
* Property reads (`v[k]`) return `undefined` for missing members and raise a
  `TypeError` for a `null`/`undefined` receiver, as in JS.  Property
  writes are modelled for objects and (by numeric index) arrays; the
  script runs in strict mode, so a write to a property of a primitive
  raises a `TypeError`.  (JS additionally allows non-index properties on
  arrays; an array-valued operation object is not representable here and
  is modelled as a type error.  OpenAPI operations are objects, and no
  claim exercises this corner.)
* `for (const k in v)` enumerates own enumerable keys: member keys in
  insertion order for objects, index keys for arrays and strings, and
  nothing for primitives.  Index keys are represented by `JKey.i`
  (JS hands them to the loop body as decimal strings; `keyStr` recovers
  that string where the source passes the key onward).
* The external snippet generator `OpenAPISnippet.getEndpointSnippets` is
  an opaque collaborator; it is a parameter `gen` of the engine.  The
  source reads `generatedCode.snippets`; `gen` returns that array
  directly.
* `process.exit(1)` plus the logged diagnostic is modelled by an
  `Except` error carrying the exit code and the message text.
-/

/-- A JavaScript/JSON value.  `undefined` is JS `undefined`. -/
inductive JValue where
  | null
  | undefined
  | bool (b : Bool)
  | num (n : Int)
  | str (s : String)
  | arr (elems : List JValue)
  | obj (fields : List (String × JValue))
deriving Repr, Inhabited

/-- JS truthiness: `null`, `undefined`, `false`, `0`, and `""` are falsy;
every object and array (even empty) is truthy. -/
def truthy : JValue → Bool
  | .null => false
  | .undefined => false
  | .bool b => b
  | .num n => n != 0
  | .str s => s != ""
  | .arr _ => true
  | .obj _ => true

/-- Errors thrown by the engine: the source's `PropertyError` class
(message `"Non-existent property: " + property`) and a JS `TypeError`. -/
inductive JError where
  | propertyError (property : String)
  | typeError
deriving Repr, DecidableEq

/-- First-match lookup in an object's field list (JS own-property read). -/
def getField : List (String × JValue) → String → Option JValue
  | [], _ => none
  | (k, v) :: rest, key => if k = key then some v else getField rest key

/-- JS property assignment on an object: overwrite the first occurrence of
the key in place, else append the new key at the end. -/
def setKey : List (String × JValue) → String → JValue → List (String × JValue)
  | [], key, v => [(key, v)]
  | (k, w) :: rest, key, v =>
    if k = key then (key, v) :: rest else (k, w) :: setKey rest key v

/-- JS array element assignment `a[i] = v`: in place if `i` is in bounds,
otherwise the array grows, holes reading back as `undefined`. -/
def setIdx : List JValue → Nat → JValue → List JValue
  | [], 0, v => [v]
  | [], n + 1, v => .undefined :: setIdx [] n v
  | _ :: xs, 0, v => v :: xs
  | x :: xs, n + 1, v => x :: setIdx xs n v

/-- The numeric value of a decimal digit character. -/
def digitVal (c : Char) : Option Nat :=
  if c.toNat >= 48 && c.toNat <= 57 then some (c.toNat - 48) else none

/-- Fold a digit string into a number, failing on a non-digit. -/
def natOfDigits : List Char -> Nat -> Option Nat
  | [], acc => some acc
  | c :: cs, acc =>
    match digitVal c with
    | some d => natOfDigits cs (acc * 10 + d)
    | none => none

/-- A JS canonical array-index key: the decimal numeral of its value
(so "01", "" or "x" address no element). -/
def jsIndex? (k : String) : Option Nat :=
  match natOfDigits k.data 0 with
  | some n => if toString n = k then some n else none
  | none => none

/-- JS property read `v[k]` for a string key: `undefined` for a missing
member, `TypeError` for a `null`/`undefined` receiver; arrays and strings
convert canonical numeric keys to indices. -/
def getProp : JValue → String → Except JError JValue
  | .null, _ => .error .typeError
  | .undefined, _ => .error .typeError
  | .obj fs, k => .ok ((getField fs k).getD .undefined)
  | .arr xs, k =>
    .ok (match jsIndex? k with
      | some i => xs[i]?.getD .undefined
      | none => .undefined)
  | .str s, k =>
    .ok (match jsIndex? k with
      | some i =>
        match s.toList[i]? with
        | some c => .str (String.mk [c])
        | none => .undefined
      | none => .undefined)
  | _, _ => .ok .undefined

/-- JS property read `v[i]` for an index key. -/
def getIdx : JValue → Nat → Except JError JValue
  | .null, _ => .error .typeError
  | .undefined, _ => .error .typeError
  | .obj fs, i => .ok ((getField fs (toString i)).getD .undefined)
  | .arr xs, i => .ok (xs[i]?.getD .undefined)
  | .str s, i =>
    .ok (match s.toList[i]? with
      | some c => .str (String.mk [c])
      | none => .undefined)
  | _, _ => .ok .undefined

/-- JS property write `v[k] = x` for a string key (strict mode). -/
def setProp : JValue → String → JValue → Except JError JValue
  | .obj fs, k, x => .ok (.obj (setKey fs k x))
  | .arr xs, k, x =>
    match jsIndex? k with
    | some i => .ok (.arr (setIdx xs i x))
    | none => .error .typeError
  | _, _, _ => .error .typeError

/-- JS property write `v[i] = x` for an index key (strict mode). -/
def setIdxV : JValue → Nat → JValue → Except JError JValue
  | .obj fs, i, x => .ok (.obj (setKey fs (toString i) x))
  | .arr xs, i, x => .ok (.arr (setIdx xs i x))
  | _, _, _ => .error .typeError

/-- A key as produced by `for (const k in v)`: a member key for objects,
an index key for arrays and strings. -/
inductive JKey where
  | s (k : String)
  | i (n : Nat)
deriving Repr, DecidableEq

/-- The string JS hands to the loop body for a `for (... in ...)` key. -/
def keyStr : JKey → String
  | .s k => k
  | .i n => toString n

/-- The keys `for (const k in v)` enumerates, in order. -/
def forInKeys : JValue → List JKey
  | .obj fs => fs.map (fun kv => .s kv.1)
  | .arr xs => (List.range xs.length).map .i
  | .str s => (List.range s.length).map .i
  | _ => []

/-- Read `v[k]` for a `for`-`in` key. -/
def getKey (v : JValue) : JKey → Except JError JValue
  | .s k => getProp v k
  | .i n => getIdx v n

/-- Write `v[k] = x` for a `for`-`in` key. -/
def setKeyV (v : JValue) : JKey → JValue → Except JError JValue
  | .s k, x => setProp v k x
  | .i n, x => setIdxV v n x

/-- One generated snippet, as returned inside `generatedCode.snippets`:
`title` becomes the sample's `lang`, `content` its `source`. -/
structure Snippet where
  title : String
  content : String
deriving Repr, DecidableEq

/-- `{ "lang": snippet.title, "source": snippet.content }` (parse.js:505). -/
def sampleOf (s : Snippet) : JValue :=
  .obj [("lang", .str s.title), ("source", .str s.content)]

/-- The external snippet generator
`OpenAPISnippet.getEndpointSnippets(schema, path, method, targets)`,
yielding the `snippets` array. -/
abbrev Generator := JValue → String → String → List String → List Snippet

/-- The inner loop of `enrichSchema` (parse.js:500-509): for each generated
snippet, at its positional index, if
`schema.paths[path][method]["x-code-samples"][snippetIdx]` is falsy, write
the new sample there; otherwise leave the entry untouched (skip notice). -/
def writeSnippets : List Snippet → Nat → JValue → Except JError JValue
  | [], _, op => .ok op
  | snip :: rest, i, op =>
    match getProp op "x-code-samples" with
    | .error e => .error e
    | .ok xcs =>
      match getIdx xcs i with
      | .error e => .error e
      | .ok entry =>
        if truthy entry then writeSnippets rest (i + 1) op
        else
          match setIdxV xcs i (sampleOf snip) with
          | .error e => .error e
          | .ok xcs1 =>
            match setProp op "x-code-samples" xcs1 with
            | .error e => .error e
            | .ok op1 => writeSnippets rest (i + 1) op1

/-- The per-operation body of `enrichSchema` (parse.js:494-509): if the
operation's `x-code-samples` field is falsy, set it to `[]`; then run the
snippet loop. -/
def enrichOp (snips : List Snippet) (op : JValue) : Except JError JValue :=
  match getProp op "x-code-samples" with
  | .error e => .error e
  | .ok cur =>
    if truthy cur then writeSnippets snips 0 op
    else
      match setProp op "x-code-samples" (.arr []) with
      | .error e => .error e
      | .ok op1 => writeSnippets snips 0 op1

/-- Read `schema.paths[path][method]`. -/
def getOpAt (schema : JValue) (p m : JKey) : Except JError JValue :=
  match getProp schema "paths" with
  | .error e => .error e
  | .ok paths =>
    match getKey paths p with
    | .error e => .error e
    | .ok item => getKey item m

/-- Store an updated operation object back at `schema.paths[path][method]`
(the source mutates in place; on a tree this is update along the path). -/
def setOpAt (schema : JValue) (p m : JKey) (op : JValue) : Except JError JValue :=
  match getProp schema "paths" with
  | .error e => .error e
  | .ok paths =>
    match getKey paths p with
    | .error e => .error e
    | .ok item =>
      match setKeyV item m op with
      | .error e => .error e
      | .ok item1 =>
        match setKeyV paths p item1 with
        | .error e => .error e
        | .ok paths1 => setProp schema "paths" paths1

/-- One iteration of the method loop (parse.js:491-511): call the
generator on the current document, then merge its snippets into the
operation. -/
def enrichMethod (gen : Generator) (targets : List String) (p : JKey)
    (schema : JValue) (m : JKey) : Except JError JValue :=
  let snips := gen schema (keyStr p) (keyStr m) targets
  match getOpAt schema p m with
  | .error e => .error e
  | .ok op =>
    match enrichOp snips op with
    | .error e => .error e
    | .ok op1 => setOpAt schema p m op1

/-- Error-propagating left fold (sequential statement iteration). -/
def foldE (f : α → β → Except ε α) : α → List β → Except ε α
  | a, [] => .ok a
  | a, b :: bs =>
    match f a b with
    | .error e => .error e
    | .ok a1 => foldE f a1 bs

/-- One iteration of the path loop (parse.js:490-512): enumerate the
methods of `schema.paths[path]` and process each. -/
def enrichPath (gen : Generator) (targets : List String)
    (schema : JValue) (p : JKey) : Except JError JValue :=
  match getProp schema "paths" with
  | .error e => .error e
  | .ok paths =>
    match getKey paths p with
    | .error e => .error e
    | .ok item => foldE (enrichMethod gen targets p) schema (forInKeys item)

/-- `schema.hasOwnProperty("paths")` (parse.js:487); `TypeError` on a
`null`/`undefined` receiver, `false` for boxed primitives. -/
def hasPathsProperty : JValue → Except JError Bool
  | .null => .error .typeError
  | .undefined => .error .typeError
  | .obj fs => .ok (getField fs "paths").isSome
  | _ => .ok false

/-- `enrichSchema` (parse.js:486-514): assert the `paths` property exists
(else throw `PropertyError("paths")`), then walk every path and method,
merging generated samples into each operation, and return the document. -/
def enrichSchema (gen : Generator) (targets : List String)
    (schema : JValue) : Except JError JValue :=
  match hasPathsProperty schema with
  | .error e => .error e
  | .ok false => .error (.propertyError "paths")
  | .ok true =>
    match getProp schema "paths" with
    | .error e => .error e
    | .ok paths => foldE (enrichPath gen targets) schema (forInKeys paths)

/-- The fixed vocabulary of valid snippet targets (parse.js:389-412). -/
def validTargets : List String :=
  [ "c_libcurl", "csharp_restsharp", "go_native", "java_okhttp",
    "java_unirest", "javascript_jquery", "javascript_xhr", "node_native",
    "node_request", "node_unirest", "objc_nsurlsession", "ocaml_cohttp",
    "php_curl", "php_http1", "php_http2", "python_python3",
    "python_requests", "ruby_native", "shell_curl", "shell_httpie",
    "shell_wget", "swift_nsurlsession" ]

/-- The built-in default snippet targets, the initial value of the
mutable `targets` binding (parse.js:415-423). -/
def targets : List String :=
  [ "php_curl", "javascript_xhr", "java_okhttp", "python_requests",
    "python_python3", "go_native", "shell_curl" ]

/-- `checkParameters` (parse.js:523-542): require at least the raw and
final file names; report whether the last argument is the verbose flag.
An error carries the exit code and the diagnostic. -/
def checkParameters (argv : List String) : Except (Nat × String) Bool :=
  if argv.length < 3 then
    .error (1, "Please pass the OpenAPI JSON raw specification file name as argument.")
  else if argv.length < 4 then
    .error (1, "Please specify an output file.")
  else
    .ok (argv.getLastD "" == "-v" || argv.getLastD "" == "--verbose")

/-- The diagnostic `configureTargets` logs for an invalid target. -/
def invalidTargetMsg (t : String) : String :=
  "Target '" ++ t ++ "' is not valid"

/-- `configureTargets` (parse.js:550-570): with extra arguments present,
the sentinel `"default"` in position 4 skips validation; otherwise every
target token (excluding a trailing verbose flag) must be in
`validTargets`, the first invalid one being fatal.  With no extra
arguments the defaults are kept and a warning is emitted (the returned
flag records the warning). -/
def configureTargets (argv : List String) (isVerbose : Bool) :
    Except (Nat × String) (List String × Bool) :=
  if argv.length > 4 then
    if argv.get? 4 = some "default" then .ok (targets, false)
    else
      let targetsToCheck :=
        if isVerbose then (argv.drop 4).dropLast else argv.drop 4
      match targetsToCheck.find? (fun t => !(validTargets.contains t)) with
      | some t => .error (1, invalidTargetMsg t)
      | none => .ok (targetsToCheck, false)
  else .ok (targets, true)

/-- JS `String.prototype.endsWith` (suffix test on the character data). -/
def strEndsWith (s suffix : String) : Bool :=
  List.isSuffixOf suffix.data s.data

/-- `checkOutputFileType` (parse.js:577-583): the requested output file
name must end in `json`. -/
def checkOutputFileType (final_spec_file : String) : Except (Nat × String) Unit :=
  if strEndsWith final_spec_file "json" then .ok ()
  else .error (1, "Only JSON format is supported for output.")

/-- The message attached to an engine error when it reaches the CLI. -/
def errMessage : JError → String
  | .propertyError p => "Non-existent property: " ++ p
  | .typeError => "TypeError"

/-- Filesystem-visible events of one pipeline run, in order. -/
inductive PEvent where
  | unlinkOutput (file : String)
  | readInput (file : String)
  | enriched
  | writeOutput (file : String)
deriving Repr, DecidableEq

/-- `processInputs` (parse.js:681-689): check parameters, configure
targets, gate the output file type, remove an existing output file, then
read, enrich and write.  `outputExists` abstracts `fs.existsSync`,
`rawDoc` the parsed input document, `hashOf` the `object-hash`
fingerprint used for the `[contenthash]` substitution.  An error carries
the exit code, the diagnostic, and the events performed before failing;
success carries the full event trace and the enriched document. -/
def processInputs (argv : List String) (outputExists : Bool)
    (rawDoc : JValue) (gen : Generator) (hashOf : JValue → String) :
    Except (Nat × String × List PEvent) (List PEvent × JValue) :=
  match checkParameters argv with
  | .error (c, msg) => .error (c, msg, [])
  | .ok isVerbose =>
    match configureTargets argv isVerbose with
    | .error (c, msg) => .error (c, msg, [])
    | .ok (tgts, _warned) =>
      let final_spec_file := argv.getD 3 ""
      match checkOutputFileType final_spec_file with
      | .error (c, msg) => .error (c, msg, [])
      | .ok _ =>
        let ev0 :=
          if outputExists then [PEvent.unlinkOutput ("./" ++ final_spec_file)] else []
        let ev1 := ev0 ++ [PEvent.readInput (argv.getD 2 "")]
        match enrichSchema gen tgts rawDoc with
        | .error e => .error (1, errMessage e, ev1)
        | .ok schema1 =>
          let outName := final_spec_file.replace "[contenthash]" (hashOf schema1)
          .ok (ev1 ++ [PEvent.enriched, PEvent.writeOutput outName], schema1)

/-! ## Derived notions used by the statements and proofs -/

/-- Erase the `x-code-samples` field of an operation object (identity on
non-objects).  Two documents with equal scrubs differ at most in the
`x-code-samples` fields of their operations. -/
def scrubOp : JValue → JValue
  | .obj fs => .obj (fs.filter (fun kv => kv.1 != "x-code-samples"))
  | v => v

/-- Apply `F` to every member a `for`-`in` loop would visit. -/
def mapMembers (F : JValue → JValue) : JValue → JValue
  | .obj fs => .obj (fs.map (fun kv => (kv.1, F kv.2)))
  | .arr xs => .arr (xs.map F)
  | v => v

/-- Scrub every operation of a path item. -/
def scrubItem : JValue → JValue := mapMembers scrubOp

/-- Scrub every operation of every path item. -/
def scrubPaths : JValue → JValue := mapMembers scrubItem

/-- Scrub every operation of a document, leaving everything outside the
`paths` subtree untouched. -/
def scrubSchema : JValue → JValue
  | .obj fs =>
    .obj (fs.map (fun kv => if kv.1 = "paths" then (kv.1, scrubPaths kv.2) else kv))
  | v => v

/-- The entry of `v` at index `i` is truthy (`false` also when reading
`v[i]` would throw). -/
def truthyAt (v : JValue) (i : Nat) : Bool :=
  match getIdx v i with
  | .ok e => truthy e
  | .error _ => false

/-- An operation is saturated up to `n`: its `x-code-samples` value is
truthy and so are its entries at all indices below `n`; the merge loop
then skips every one of the first `n` generated snippets. -/
def OpSat (n : Nat) (op : JValue) : Prop :=
  ∃ v, getProp op "x-code-samples" = .ok v ∧ truthy v = true ∧
    ∀ i, i < n → truthyAt v i = true

/-- The value of `schema.paths` (`undefined` when the read would throw). -/
def pathsOf (s : JValue) : JValue :=
  match getProp s "paths" with
  | .ok v => v
  | .error _ => .undefined

/-- The path item `schema.paths[p]` (`undefined` when unreadable). -/
def itemAt (s : JValue) (p : JKey) : JValue :=
  match getKey (pathsOf s) p with
  | .ok v => v
  | .error _ => .undefined

/-- The operation at slot `(p, m)` exists and satisfies `P`. -/
def SlotPred (P : JValue → Prop) (p m : JKey) (s : JValue) : Prop :=
  ∃ op, getOpAt s p m = .ok op ∧ P op

/-- Two `for`-`in` keys of one container that address different slots. -/
def JKeyNe : JKey → JKey → Prop
  | .s k, .s k' => k ≠ k'
  | .i n, .i n' => n ≠ n'
  | _, _ => False

/-- Objects and arrays (the values whose members can be assigned). -/
def isContainer : JValue → Prop
  | .obj _ => True
  | .arr _ => True
  | _ => False

/-! ## Concrete documents and generators used in examples -/

/-- A generator producing the single `shell_curl` snippet of the spec's
end-to-end example, for every operation. -/
def genShell : Generator :=
  fun _ _ _ _ => [{ title := "shell_curl", content := "curl ..." }]

/-- A generator producing no snippets. -/
def genNone : Generator := fun _ _ _ _ => []

/-- A generator that is a pure function of its inputs but inspects the
document: it emits one snippet exactly when the operation already has an
`x-code-samples` member.  Legal per the engine's collaborator contract
(the generator receives the whole document). -/
def genProbe : Generator := fun s p m _ =>
  match getOpAt s (.s p) (.s m) with
  | .ok op =>
    match getProp op "x-code-samples" with
    | .ok .undefined => []
    | .ok _ => [{ title := "shell_curl", content := "curl" }]
    | .error _ => []
  | .error _ => []

/-- The spec's end-to-end example input. -/
def docPets : JValue :=
  .obj [("paths", .obj [("/pets", .obj [("get", .obj [])])])]

/-- The spec's end-to-end example output. -/
def docPetsOut : JValue :=
  .obj [("paths", .obj [("/pets", .obj [("get", .obj [("x-code-samples",
    .arr [.obj [("lang", .str "shell_curl"), ("source", .str "curl ...")]])])])])]

/-- A document whose one operation has a pre-populated `x-code-samples`
sequence with an entry (`null`) at index 0. -/
def docNullEntry : JValue :=
  .obj [("paths", .obj [("/pets", .obj [("get", .obj [("x-code-samples",
    .arr [.null])])])])]

/-- What enrichment actually produces from `docNullEntry`: the `null`
entry at index 0 has been overwritten by the generated sample. -/
def docNullEntryOut : JValue :=
  .obj [("paths", .obj [("/pets", .obj [("get", .obj [("x-code-samples",
    .arr [.obj [("lang", .str "shell_curl"), ("source", .str "curl ...")]])])])])]

/-- A document whose one operation has an existing `x-code-samples` field
holding `null`. -/
def docNullField : JValue :=
  .obj [("paths", .obj [("/pets", .obj [("get", .obj [("x-code-samples", .null)])])])]

/-- What enrichment (with a generator producing no snippets) makes of
`docNullField`: the existing `null` value has been replaced by `[]`. -/
def docNullFieldOut : JValue :=
  .obj [("paths", .obj [("/pets", .obj [("get", .obj [("x-code-samples", .arr [])])])])]

/-- A one-operation document with no `x-code-samples` field. -/
def docEmptyOp : JValue :=
  .obj [("paths", .obj [("/p", .obj [("get", .obj [])])])]

/-- `docEmptyOp` after one enrichment run under `genProbe`. -/
def docEmptyXcs : JValue :=
  .obj [("paths", .obj [("/p", .obj [("get", .obj [("x-code-samples", .arr [])])])])]

/-- `docEmptyXcs` after a second enrichment run under `genProbe`: the
second run wrote a sample, so the two runs are not idempotent. -/
def docOneSample : JValue :=
  .obj [("paths", .obj [("/p", .obj [("get", .obj [("x-code-samples",
    .arr [.obj [("lang", .str "shell_curl"), ("source", .str "curl")]])])])])]

/-! ## Field-list and array-update lemmas -/

theorem getField_setKey_self (fs : List (String × JValue)) (k : String) (v : JValue) :
    getField (setKey fs k v) k = some v := by
  induction fs with
  | nil => simp [setKey, getField]
  | cons kv rest ih =>
    obtain ⟨k0, v0⟩ := kv
    by_cases h : k0 = k
    · simp [setKey, h, getField]
    · simp [setKey, h, getField, ih]

theorem getField_setKey_ne (fs : List (String × JValue)) (k k' : String) (v : JValue)
    (h : k' ≠ k) : getField (setKey fs k v) k' = getField fs k' := by
  induction fs with
  | nil =>
    have h' : ¬ k = k' := fun hh => h hh.symm
    simp [setKey, getField, h']
  | cons kv rest ih =>
    obtain ⟨k0, v0⟩ := kv
    by_cases h0 : k0 = k
    · subst h0
      have h' : ¬ k0 = k' := fun hh => h hh.symm
      simp [setKey, getField, h']
    · simp [setKey, h0, getField, ih]

theorem getField_setKey_cases (fs : List (String × JValue)) (k k' : String) (v : JValue) :
    getField (setKey fs k v) k' = getField fs k' ∨ getField (setKey fs k v) k' = some v := by
  by_cases h : k' = k
  · subst h
    exact Or.inr (getField_setKey_self fs k' v)
  · exact Or.inl (getField_setKey_ne fs k k' v h)

theorem setKey_eq_self (fs : List (String × JValue)) (k : String) (v : JValue)
    (h : getField fs k = some v) : setKey fs k v = fs := by
  induction fs with
  | nil => simp [getField] at h
  | cons kv rest ih =>
    obtain ⟨k0, v0⟩ := kv
    by_cases h0 : k0 = k
    · subst h0
      simp [getField] at h
      simp [setKey, h]
    · simp [getField, h0] at h
      simp [setKey, h0, ih h]

theorem filter_setKey (fs : List (String × JValue)) (k : String) (v : JValue) :
    (setKey fs k v).filter (fun kv => kv.1 != k) = fs.filter (fun kv => kv.1 != k) := by
  induction fs with
  | nil => simp [setKey]
  | cons kv rest ih =>
    obtain ⟨k0, v0⟩ := kv
    by_cases h0 : k0 = k
    · subst h0
      simp [setKey, List.filter]
    · have hb : (k0 != k) = true := by simp [h0]
      simp [setKey, h0, List.filter, hb, ih]

theorem map_fst_setKey (fs : List (String × JValue)) (k : String) (v : JValue)
    (h : (getField fs k).isSome) :
    (setKey fs k v).map Prod.fst = fs.map Prod.fst := by
  induction fs with
  | nil => simp [getField] at h
  | cons kv rest ih =>
    obtain ⟨k0, v0⟩ := kv
    by_cases h0 : k0 = k
    · subst h0
      simp [setKey]
    · simp [getField, h0] at h
      simp [setKey, h0, ih h]

theorem map_val_setKey (F : JValue → JValue) (fs : List (String × JValue))
    (k : String) (w w' : JValue) (h : getField fs k = some w) (hF : F w' = F w) :
    (setKey fs k w').map (fun kv => (kv.1, F kv.2)) = fs.map (fun kv => (kv.1, F kv.2)) := by
  induction fs with
  | nil => simp [getField] at h
  | cons kv rest ih =>
    obtain ⟨k0, v0⟩ := kv
    by_cases h0 : k0 = k
    · subst h0
      simp [getField] at h
      subst h
      simp [setKey, hF]
    · simp [getField, h0] at h
      simp [setKey, h0, ih h]

theorem map_if_setKey (F : JValue → JValue) (fs : List (String × JValue))
    (k : String) (w w' : JValue) (h : getField fs k = some w) (hF : F w' = F w) :
    (setKey fs k w').map (fun kv => if kv.1 = k then (kv.1, F kv.2) else kv) =
      fs.map (fun kv => if kv.1 = k then (kv.1, F kv.2) else kv) := by
  induction fs with
  | nil => simp [getField] at h
  | cons kv rest ih =>
    obtain ⟨k0, v0⟩ := kv
    by_cases h0 : k0 = k
    · subst h0
      simp [getField] at h
      subst h
      simp [setKey, hF]
    · simp [getField, h0] at h
      simp [setKey, h0, ih h]

theorem getField_isSome_of_mem (fs : List (String × JValue)) (k : String)
    (h : k ∈ fs.map Prod.fst) : (getField fs k).isSome := by
  induction fs with
  | nil => simp at h
  | cons kv rest ih =>
    obtain ⟨k0, v0⟩ := kv
    by_cases h0 : k0 = k
    · simp [getField, h0]
    · simp only [List.map_cons, List.mem_cons] at h
      rcases h with h | h
      · exact absurd h.symm h0
      · simp [getField, h0, ih h]

theorem get_setIdx_self (xs : List JValue) (i : Nat) (v : JValue) :
    (setIdx xs i v)[i]? = some v := by
  induction xs generalizing i with
  | nil =>
    induction i with
    | zero => simp [setIdx]
    | succ n ih => simpa [setIdx] using ih
  | cons x rest ih =>
    cases i with
    | zero => simp [setIdx]
    | succ n => simpa [setIdx] using ih n

theorem get_setIdx_lt (xs : List JValue) (i j : Nat) (v : JValue)
    (hj : j < xs.length) (hne : j ≠ i) : (setIdx xs i v)[j]? = xs[j]? := by
  induction xs generalizing i j with
  | nil => simp at hj
  | cons x rest ih =>
    cases i with
    | zero =>
      cases j with
      | zero => exact absurd rfl hne
      | succ jj => simp [setIdx]
    | succ n =>
      cases j with
      | zero => simp [setIdx]
      | succ jj =>
        simp only [List.length_cons, Nat.succ_lt_succ_iff] at hj
        have := ih n jj hj (fun hh => hne (by simp [hh]))
        simpa [setIdx] using this

theorem get_setIdx_cases (xs : List JValue) (i j : Nat) (v : JValue) :
    (setIdx xs i v)[j]? = xs[j]? ∨ (setIdx xs i v)[j]? = some v ∨
      ((setIdx xs i v)[j]? = some .undefined ∧ xs[j]? = none) := by
  induction xs generalizing i j with
  | nil =>
    induction i generalizing j with
    | zero =>
      cases j with
      | zero => simp [setIdx]
      | succ jj => simp [setIdx]
    | succ n ih =>
      cases j with
      | zero => right; right; simp [setIdx]
      | succ jj =>
        rcases ih jj with h | h | h
        · left
          simp [setIdx] at h ⊢
          simp [h]
        · right; left; simpa [setIdx] using h
        · right; right
          exact ⟨by simpa [setIdx] using h.1, by simp⟩
  | cons x rest ih =>
    cases i with
    | zero =>
      cases j with
      | zero => right; left; simp [setIdx]
      | succ jj => left; simp [setIdx]
    | succ n =>
      cases j with
      | zero => left; simp [setIdx]
      | succ jj =>
        rcases ih n jj with h | h | h
        · left; simpa [setIdx] using h
        · right; left; simpa [setIdx] using h
        · right; right
          exact ⟨by simpa [setIdx] using h.1, by simpa using h.2⟩

theorem setIdx_eq_self (xs : List JValue) (i : Nat) (v : JValue)
    (h : xs[i]? = some v) : setIdx xs i v = xs := by
  induction xs generalizing i with
  | nil => simp at h
  | cons x rest ih =>
    cases i with
    | zero =>
      simp at h
      simp [setIdx, h]
    | succ n =>
      simp at h
      simp [setIdx, ih n h]

theorem length_setIdx_of_lt (xs : List JValue) (i : Nat) (v : JValue)
    (h : i < xs.length) : (setIdx xs i v).length = xs.length := by
  induction xs generalizing i with
  | nil => simp at h
  | cons x rest ih =>
    cases i with
    | zero => simp [setIdx]
    | succ n =>
      simp only [List.length_cons, Nat.succ_lt_succ_iff] at h
      simp [setIdx, ih n h]

theorem length_le_setIdx (xs : List JValue) (i : Nat) (v : JValue) :
    xs.length ≤ (setIdx xs i v).length := by
  induction xs generalizing i with
  | nil => simp
  | cons x rest ih =>
    cases i with
    | zero => simp [setIdx]
    | succ n => simpa [setIdx] using ih n

theorem map_setIdx (F : JValue → JValue) (xs : List JValue) (i : Nat)
    (w w' : JValue) (h : xs[i]? = some w) (hF : F w' = F w) :
    (setIdx xs i w').map F = xs.map F := by
  induction xs generalizing i with
  | nil => simp at h
  | cons x rest ih =>
    cases i with
    | zero =>
      simp at h
      subst h
      simp [setIdx, hF]
    | succ n =>
      simp at h
      simp [setIdx, ih n h]

/-! ## Property read/write lemmas on `JValue` -/

theorem truthy_isContainer (v : JValue) (h : isContainer v) : truthy v = true := by
  cases v <;> simp [isContainer] at h <;> simp [truthy]

theorem getProp_setProp_self (v v' x : JValue) (k : String)
    (h : setProp v k x = .ok v') : getProp v' k = .ok x := by
  cases v with
  | obj fs =>
    simp [setProp] at h
    subst h
    simp [getProp, getField_setKey_self]
  | arr xs =>
    simp only [setProp] at h
    cases hk : jsIndex? k with
    | none => simp [hk] at h
    | some i =>
      simp [hk] at h
      subst h
      simp [getProp, hk, get_setIdx_self]
  | null => simp [setProp] at h
  | undefined => simp [setProp] at h
  | bool b => simp [setProp] at h
  | num n => simp [setProp] at h
  | str s => simp [setProp] at h

theorem getKey_setKeyV_self (v v' x : JValue) (key : JKey)
    (h : setKeyV v key x = .ok v') : getKey v' key = .ok x := by
  cases key with
  | s k => exact getProp_setProp_self v v' x k h
  | i n =>
    cases v with
    | obj fs =>
      simp [setKeyV, setIdxV] at h
      subst h
      simp [getKey, getIdx, getField_setKey_self]
    | arr xs =>
      simp [setKeyV, setIdxV] at h
      subst h
      simp [getKey, getIdx, get_setIdx_self]
    | null => simp [setKeyV, setIdxV] at h
    | undefined => simp [setKeyV, setIdxV] at h
    | bool b => simp [setKeyV, setIdxV] at h
    | num m => simp [setKeyV, setIdxV] at h
    | str s => simp [setKeyV, setIdxV] at h

theorem setKeyV_eq_self (v x : JValue) (key : JKey)
    (h : getKey v key = .ok x) (hx : x ≠ .undefined) (hc : isContainer v) :
    setKeyV v key x = .ok v := by
  cases key with
  | s k =>
    cases v with
    | obj fs =>
      simp [getKey, getProp] at h
      cases hf : getField fs k with
      | none => rw [hf] at h; simp at h; exact absurd h.symm hx
      | some w =>
        rw [hf] at h
        simp at h
        subst h
        simp [setKeyV, setProp, setKey_eq_self _ _ _ hf]
    | arr xs =>
      simp only [getKey, getProp] at h
      cases hk : jsIndex? k with
      | none => simp [hk] at h; exact absurd h.symm hx
      | some i =>
        simp [hk] at h
        cases hg : xs[i]? with
        | none => rw [hg] at h; simp at h; exact absurd h.symm hx
        | some w =>
          rw [hg] at h
          simp at h
          subst h
          simp [setKeyV, setProp, hk, setIdx_eq_self _ _ _ hg]
    | null => simp [getKey, getProp] at h
    | undefined => simp [getKey, getProp] at h
    | bool b => simp [isContainer] at hc
    | num n => simp [isContainer] at hc
    | str s => simp [isContainer] at hc
  | i n =>
    cases v with
    | obj fs =>
      simp [getKey, getIdx] at h
      cases hf : getField fs (toString n) with
      | none => rw [hf] at h; simp at h; exact absurd h.symm hx
      | some w =>
        rw [hf] at h
        simp at h
        subst h
        simp [setKeyV, setIdxV, setKey_eq_self _ _ _ hf]
    | arr xs =>
      simp [getKey, getIdx] at h
      cases hg : xs[n]? with
      | none => rw [hg] at h; simp at h; exact absurd h.symm hx
      | some w =>
        rw [hg] at h
        simp at h
        subst h
        simp [setKeyV, setIdxV, setIdx_eq_self _ _ _ hg]
    | null => simp [getKey, getIdx] at h
    | undefined => simp [getKey, getIdx] at h
    | bool b => simp [isContainer] at hc
    | num m => simp [isContainer] at hc
    | str s => simp [isContainer] at hc

theorem getKey_ok_container (c x : JValue) (key : JKey)
    (h : getKey c key = .ok x) (hx : isContainer x) : isContainer c := by
  cases key with
  | s k =>
    cases c with
    | obj fs => simp [isContainer]
    | arr xs => simp [isContainer]
    | null => simp [getKey, getProp] at h
    | undefined => simp [getKey, getProp] at h
    | bool b =>
      simp [getKey, getProp] at h
      subst h
      simp [isContainer] at hx
    | num n =>
      simp [getKey, getProp] at h
      subst h
      simp [isContainer] at hx
    | str s =>
      simp only [getKey, getProp] at h
      cases hk : jsIndex? k with
      | none =>
        simp [hk] at h
        subst h
        simp [isContainer] at hx
      | some i =>
        simp only [hk] at h
        cases hg : s.toList[i]? with
        | none =>
          rw [hg] at h
          simp at h
          subst h
          simp [isContainer] at hx
        | some ch =>
          rw [hg] at h
          simp at h
          subst h
          simp [isContainer] at hx
  | i n =>
    cases c with
    | obj fs => simp [isContainer]
    | arr xs => simp [isContainer]
    | null => simp [getKey, getIdx] at h
    | undefined => simp [getKey, getIdx] at h
    | bool b =>
      simp [getKey, getIdx] at h
      subst h
      simp [isContainer] at hx
    | num m =>
      simp [getKey, getIdx] at h
      subst h
      simp [isContainer] at hx
    | str s =>
      simp only [getKey, getIdx] at h
      cases hg : s.toList[n]? with
      | none =>
        rw [hg] at h
        simp at h
        subst h
        simp [isContainer] at hx
      | some ch =>
        rw [hg] at h
        simp at h
        subst h
        simp [isContainer] at hx

theorem getProp_ok_obj_of_container (sch x : JValue) (k : String)
    (h : getProp sch k = .ok x) (hx : isContainer x) (hk : jsIndex? k = none) :
    ∃ fs, sch = .obj fs ∧ getField fs k = some x := by
  cases sch with
  | obj fs =>
    refine ⟨fs, rfl, ?_⟩
    simp [getProp] at h
    cases hf : getField fs k with
    | none =>
      rw [hf] at h
      simp at h
      subst h
      simp [isContainer] at hx
    | some w =>
      rw [hf] at h
      simp at h
      rw [h]
  | arr xs =>
    simp [getProp, hk] at h
    subst h
    simp [isContainer] at hx
  | str s =>
    simp [getProp, hk] at h
    subst h
    simp [isContainer] at hx
  | null => simp [getProp] at h
  | undefined => simp [getProp] at h
  | bool b =>
    simp [getProp] at h
    subst h
    simp [isContainer] at hx
  | num n =>
    simp [getProp] at h
    subst h
    simp [isContainer] at hx

theorem truthy_getProp_obj (op v : JValue) (h : getProp op "x-code-samples" = .ok v)
    (ht : truthy v = true) :
    ∃ fs, op = .obj fs ∧ getField fs "x-code-samples" = some v := by
  cases op with
  | obj fs =>
    refine ⟨fs, rfl, ?_⟩
    simp [getProp] at h
    cases hf : getField fs "x-code-samples" with
    | none =>
      rw [hf] at h
      simp at h
      subst h
      simp [truthy] at ht
    | some w =>
      rw [hf] at h
      simp at h
      rw [h]
  | arr xs =>
    have hk : jsIndex? "x-code-samples" = none := by decide
    simp [getProp, hk] at h
    subst h
    simp [truthy] at ht
  | str s =>
    have hk : jsIndex? "x-code-samples" = none := by decide
    simp [getProp, hk] at h
    subst h
    simp [truthy] at ht
  | null => simp [getProp] at h
  | undefined => simp [getProp] at h
  | bool b =>
    simp [getProp] at h
    subst h
    simp [truthy] at ht
  | num n =>
    simp [getProp] at h
    subst h
    simp [truthy] at ht

theorem setProp_ok_container (v v' x : JValue) (k : String)
    (h : setProp v k x = .ok v') : isContainer v := by
  cases v with
  | obj fs => simp [isContainer]
  | arr xs => simp [isContainer]
  | null => simp [setProp] at h
  | undefined => simp [setProp] at h
  | bool b => simp [setProp] at h
  | num n => simp [setProp] at h
  | str s => simp [setProp] at h

theorem setKeyV_ok_container (v v' x : JValue) (key : JKey)
    (h : setKeyV v key x = .ok v') : isContainer v := by
  cases key with
  | s k => exact setProp_ok_container v v' x k h
  | i n =>
    cases v with
    | obj fs => simp [isContainer]
    | arr xs => simp [isContainer]
    | null => simp [setKeyV, setIdxV] at h
    | undefined => simp [setKeyV, setIdxV] at h
    | bool b => simp [setKeyV, setIdxV] at h
    | num m => simp [setKeyV, setIdxV] at h
    | str st => simp [setKeyV, setIdxV] at h

/-! ## Lemmas about the per-operation merge loop -/

theorem truthy_sampleOf (s : Snippet) : truthy (sampleOf s) = true := rfl

theorem truthyAt_ok (v : JValue) (i : Nat) (h : truthyAt v i = true) :
    ∃ e, getIdx v i = .ok e ∧ truthy e = true := by
  unfold truthyAt at h
  cases hg : getIdx v i with
  | ok e =>
    rw [hg] at h
    exact ⟨e, rfl, h⟩
  | error e =>
    rw [hg] at h
    simp at h

theorem setIdxV_ok_shape (v w x : JValue) (i : Nat) (h : setIdxV v i x = .ok w) :
    (∃ fs, v = .obj fs ∧ w = .obj (setKey fs (toString i) x)) ∨
      (∃ xs, v = .arr xs ∧ w = .arr (setIdx xs i x)) := by
  cases v with
  | obj fs =>
    simp [setIdxV] at h
    exact Or.inl ⟨fs, rfl, h.symm⟩
  | arr xs =>
    simp [setIdxV] at h
    exact Or.inr ⟨xs, rfl, h.symm⟩
  | null => simp [setIdxV] at h
  | undefined => simp [setIdxV] at h
  | bool b => simp [setIdxV] at h
  | num n => simp [setIdxV] at h
  | str s => simp [setIdxV] at h

theorem truthyAt_setIdxV_mono (v w x : JValue) (i j : Nat)
    (h : setIdxV v i x = .ok w) (hx : truthy x = true)
    (hj : truthyAt v j = true) : truthyAt w j = true := by
  rcases setIdxV_ok_shape v w x i h with ⟨fs, hv, hw⟩ | ⟨xs, hv, hw⟩
  · subst hv; subst hw
    unfold truthyAt at hj ⊢
    simp only [getIdx] at hj ⊢
    rcases getField_setKey_cases fs (toString i) (toString j) x with hc | hc
    · rw [hc]; exact hj
    · rw [hc]; simpa using hx
  · subst hv; subst hw
    unfold truthyAt at hj ⊢
    simp only [getIdx] at hj ⊢
    rcases get_setIdx_cases xs i j x with hc | hc | hc
    · rw [hc]; exact hj
    · rw [hc]; simpa using hx
    · rw [hc.2] at hj
      simp [truthy] at hj

theorem truthyAt_setIdxV_self (v w x : JValue) (i : Nat)
    (h : setIdxV v i x = .ok w) (hx : truthy x = true) : truthyAt w i = true := by
  rcases setIdxV_ok_shape v w x i h with ⟨fs, hv, hw⟩ | ⟨xs, hv, hw⟩
  · subst hw
    unfold truthyAt
    simp only [getIdx]
    rw [getField_setKey_self]
    simpa using hx
  · subst hw
    unfold truthyAt
    simp only [getIdx]
    rw [get_setIdx_self]
    simpa using hx

theorem truthy_setIdxV (v w x : JValue) (i : Nat) (h : setIdxV v i x = .ok w) :
    truthy w = true := by
  rcases setIdxV_ok_shape v w x i h with ⟨fs, hv, hw⟩ | ⟨xs, hv, hw⟩ <;>
    subst hw <;> simp [truthy]

theorem writeSnippets_obj_frame (snips : List Snippet) :
    ∀ (i : Nat) (fs : List (String × JValue)) (op' : JValue),
    writeSnippets snips i (.obj fs) = .ok op' →
    ∃ fs', op' = .obj fs' ∧
      fs'.filter (fun kv => kv.1 != "x-code-samples") =
        fs.filter (fun kv => kv.1 != "x-code-samples") := by
  induction snips with
  | nil =>
    intro i fs op' h
    simp [writeSnippets] at h
    exact ⟨fs, h.symm, rfl⟩
  | cons snip rest ih =>
    intro i fs op' h
    simp only [writeSnippets, getProp] at h
    cases hg : getIdx ((getField fs "x-code-samples").getD .undefined) i with
    | error e => rw [hg] at h; simp at h
    | ok entry =>
      rw [hg] at h
      simp only at h
      by_cases ht : truthy entry
      · rw [if_pos ht] at h
        exact ih (i + 1) fs op' h
      · rw [if_neg ht] at h
        cases hs : setIdxV ((getField fs "x-code-samples").getD .undefined) i (sampleOf snip) with
        | error e => rw [hs] at h; simp at h
        | ok xcs1 =>
          rw [hs] at h
          simp only [setProp] at h
          rcases ih (i + 1) (setKey fs "x-code-samples" xcs1) op' h with ⟨fs', hop, hfil⟩
          exact ⟨fs', hop, hfil.trans (filter_setKey fs "x-code-samples" xcs1)⟩

theorem writeSnippets_sat (snips : List Snippet) :
    ∀ (i : Nat) (op op' v : JValue),
    writeSnippets snips i op = .ok op' →
    getProp op "x-code-samples" = .ok v → truthy v = true →
    ∃ v', getProp op' "x-code-samples" = .ok v' ∧ truthy v' = true ∧
      (∀ j, truthyAt v j = true → truthyAt v' j = true) ∧
      (∀ j, i ≤ j → j < i + snips.length → truthyAt v' j = true) := by
  induction snips with
  | nil =>
    intro i op op' v h hv ht
    simp [writeSnippets] at h
    subst h
    refine ⟨v, hv, ht, fun j hj => hj, fun j h1 h2 => ?_⟩
    simp at h2
    omega
  | cons snip rest ih =>
    intro i op op' v h hv ht
    simp only [writeSnippets] at h
    rw [hv] at h
    simp only at h
    cases hg : getIdx v i with
    | error e => rw [hg] at h; simp at h
    | ok entry =>
      rw [hg] at h
      simp only at h
      by_cases hte : truthy entry
      · rw [if_pos hte] at h
        rcases ih (i + 1) op op' v h hv ht with ⟨v', h1, h2, h3, h4⟩
        refine ⟨v', h1, h2, h3, fun j hj1 hj2 => ?_⟩
        by_cases hji : j = i
        · subst hji
          apply h3
          unfold truthyAt
          rw [hg]
          exact hte
        · exact h4 j (by omega) (by simpa [Nat.add_assoc, Nat.add_comm 1] using hj2)
      · rw [if_neg hte] at h
        cases hs : setIdxV v i (sampleOf snip) with
        | error e => rw [hs] at h; simp at h
        | ok xcs1 =>
          rw [hs] at h
          rcases truthy_getProp_obj op v hv ht with ⟨fs, hop, hf⟩
          subst hop
          simp only [setProp] at h
          have hv1 : getProp (.obj (setKey fs "x-code-samples" xcs1)) "x-code-samples" =
              .ok xcs1 := by
            simp [getProp, getField_setKey_self]
          have ht1 : truthy xcs1 = true := truthy_setIdxV v xcs1 (sampleOf snip) i hs
          rcases ih (i + 1) _ op' xcs1 h hv1 ht1 with ⟨v', h1, h2, h3, h4⟩
          refine ⟨v', h1, h2, ?_, ?_⟩
          · intro j hj
            exact h3 j (truthyAt_setIdxV_mono v xcs1 (sampleOf snip) i j hs (truthy_sampleOf snip) hj)
          · intro j hj1 hj2
            by_cases hji : j = i
            · subst hji
              exact h3 j (truthyAt_setIdxV_self v xcs1 (sampleOf snip) j hs (truthy_sampleOf snip))
            · exact h4 j (by omega) (by simpa [Nat.add_assoc, Nat.add_comm 1] using hj2)

theorem writeSnippets_skip (snips : List Snippet) :
    ∀ (i : Nat) (op v : JValue),
    getProp op "x-code-samples" = .ok v →
    (∀ j, i ≤ j → j < i + snips.length → truthyAt v j = true) →
    writeSnippets snips i op = .ok op := by
  induction snips with
  | nil => intro i op v hv hsat; simp [writeSnippets]
  | cons snip rest ih =>
    intro i op v hv hsat
    have hi : truthyAt v i = true := hsat i (Nat.le_refl i) (by simp)
    rcases truthyAt_ok v i hi with ⟨e, hg, hte⟩
    simp only [writeSnippets]
    rw [hv]
    simp only
    rw [hg]
    simp only
    rw [if_pos hte]
    exact ih (i + 1) op v hv
      (fun j h1 h2 => hsat j (by omega) (by simpa [Nat.add_assoc, Nat.add_comm 1] using h2))

theorem writeSnippets_arr_preserve (snips : List Snippet) :
    ∀ (i : Nat) (op op' : JValue) (xs : List JValue) (j : Nat) (e : JValue),
    writeSnippets snips i op = .ok op' →
    getProp op "x-code-samples" = .ok (.arr xs) →
    xs[j]? = some e → truthy e = true →
    ∃ xs', getProp op' "x-code-samples" = .ok (.arr xs') ∧
      xs'[j]? = some e ∧ xs.length ≤ xs'.length := by
  induction snips with
  | nil =>
    intro i op op' xs j e h hv hj hte
    simp [writeSnippets] at h
    subst h
    exact ⟨xs, hv, hj, Nat.le_refl _⟩
  | cons snip rest ih =>
    intro i op op' xs j e h hv hj hte
    simp only [writeSnippets] at h
    rw [hv] at h
    simp only at h
    simp only [getIdx] at h
    by_cases hti : truthy (xs[i]?.getD .undefined)
    · rw [if_pos hti] at h
      exact ih (i + 1) op op' xs j e h hv hj hte
    · rw [if_neg hti] at h
      simp only [setIdxV] at h
      rcases truthy_getProp_obj op (.arr xs) hv (by simp [truthy]) with ⟨fs, hop, hf⟩
      subst hop
      simp only [setProp] at h
      have hij : j ≠ i := by
        intro hji
        subst hji
        rw [hj] at hti
        simp at hti
        simp [hte] at hti
      have hjlen : j < xs.length := by
        by_contra hge
        rw [List.getElem?_eq_none (Nat.le_of_not_lt hge)] at hj
        exact Option.noConfusion hj
      have hv1 : getProp (.obj (setKey fs "x-code-samples" (.arr (setIdx xs i (sampleOf snip)))))
          "x-code-samples" = .ok (.arr (setIdx xs i (sampleOf snip))) := by
        simp [getProp, getField_setKey_self]
      have hj1 : (setIdx xs i (sampleOf snip))[j]? = some e := by
        rw [get_setIdx_lt xs i j (sampleOf snip) hjlen hij]
        exact hj
      rcases ih (i + 1) _ op' (setIdx xs i (sampleOf snip)) j e h hv1 hj1 hte with
        ⟨xs', h1, h2, h3⟩
      exact ⟨xs', h1, h2, Nat.le_trans (length_le_setIdx xs i (sampleOf snip)) h3⟩

theorem writeSnippets_arr_overwrite (snips : List Snippet) :
    ∀ (k : Nat) (op op' : JValue) (xs : List JValue) (j : Nat) (e : JValue) (snip : Snippet),
    writeSnippets snips k op = .ok op' →
    getProp op "x-code-samples" = .ok (.arr xs) →
    xs[j]? = some e → truthy e = false → k ≤ j → snips[j - k]? = some snip →
    ∃ xs', getProp op' "x-code-samples" = .ok (.arr xs') ∧
      xs'[j]? = some (sampleOf snip) := by
  induction snips with
  | nil =>
    intro k op op' xs j e snip h hv hj hte hkj hsn
    simp at hsn
  | cons snip0 rest ih =>
    intro k op op' xs j e snip h hv hj hte hkj hsn
    have hjlen : j < xs.length := by
      by_contra hge
      rw [List.getElem?_eq_none (Nat.le_of_not_lt hge)] at hj
      exact Option.noConfusion hj
    rcases truthy_getProp_obj op (.arr xs) hv (by simp [truthy]) with ⟨fs, hop, hf⟩
    subst hop
    simp only [writeSnippets] at h
    rw [hv] at h
    simp only at h
    simp only [getIdx, setIdxV, setProp] at h
    by_cases hkj' : k = j
    · subst hkj'
      have h0 : (k : Nat) - k = 0 := Nat.sub_self k
      rw [h0] at hsn
      simp at hsn
      subst hsn
      rw [hj] at h
      simp only [Option.getD_some] at h
      rw [if_neg (by simp [hte])] at h
      have hv1 : getProp (.obj (setKey fs "x-code-samples" (.arr (setIdx xs k (sampleOf snip0)))))
          "x-code-samples" = .ok (.arr (setIdx xs k (sampleOf snip0))) := by
        simp [getProp, getField_setKey_self]
      have hj1 : (setIdx xs k (sampleOf snip0))[k]? = some (sampleOf snip0) :=
        get_setIdx_self xs k (sampleOf snip0)
      rcases writeSnippets_arr_preserve rest (k + 1) _ op' _ k (sampleOf snip0) h hv1 hj1
        (truthy_sampleOf snip0) with ⟨xs', h1, h2, h3⟩
      exact ⟨xs', h1, h2⟩
    · have hklt : k < j := Nat.lt_of_le_of_ne hkj hkj'
      have hsn' : rest[j - (k + 1)]? = some snip := by
        have : j - k = (j - (k + 1)) + 1 := by omega
        rw [this] at hsn
        simpa using hsn
      by_cases htk : truthy (xs[k]?.getD .undefined)
      · rw [if_pos htk] at h
        exact ih (k + 1) _ op' xs j e snip h hv hj hte hklt hsn'
      · rw [if_neg htk] at h
        have hv1 : getProp (.obj (setKey fs "x-code-samples" (.arr (setIdx xs k (sampleOf snip0)))))
            "x-code-samples" = .ok (.arr (setIdx xs k (sampleOf snip0))) := by
          simp [getProp, getField_setKey_self]
        have hj1 : (setIdx xs k (sampleOf snip0))[j]? = some e := by
          rw [get_setIdx_lt xs k j (sampleOf snip0) hjlen (Ne.symm hkj')]
          exact hj
        exact ih (k + 1) _ op' (setIdx xs k (sampleOf snip0)) j e snip h hv1 hj1 hte hklt hsn'

theorem enrichOp_ok_obj (snips : List Snippet) (op op' : JValue)
    (h : enrichOp snips op = .ok op') : ∃ fs, op = .obj fs := by
  unfold enrichOp at h
  cases hv : getProp op "x-code-samples" with
  | error e => rw [hv] at h; simp at h
  | ok cur =>
    rw [hv] at h
    simp only at h
    by_cases ht : truthy cur
    · rcases truthy_getProp_obj op cur hv ht with ⟨fs, hop, _⟩
      exact ⟨fs, hop⟩
    · rw [if_neg ht] at h
      cases hs : setProp op "x-code-samples" (.arr []) with
      | error e => rw [hs] at h; simp at h
      | ok op1 =>
        have hc := setProp_ok_container op op1 (.arr []) "x-code-samples" hs
        cases op with
        | obj fs => exact ⟨fs, rfl⟩
        | arr xs =>
          have : jsIndex? "x-code-samples" = none := by decide
          simp [setProp, this] at hs
        | null => simp [isContainer] at hc
        | undefined => simp [isContainer] at hc
        | bool b => simp [isContainer] at hc
        | num n => simp [isContainer] at hc
        | str s => simp [isContainer] at hc

theorem enrichOp_obj_frame (snips : List Snippet) (fs : List (String × JValue)) (op' : JValue)
    (h : enrichOp snips (.obj fs) = .ok op') :
    ∃ fs', op' = .obj fs' ∧
      fs'.filter (fun kv => kv.1 != "x-code-samples") =
        fs.filter (fun kv => kv.1 != "x-code-samples") := by
  unfold enrichOp at h
  simp only [getProp] at h
  by_cases ht : truthy ((getField fs "x-code-samples").getD .undefined)
  · rw [if_pos ht] at h
    exact writeSnippets_obj_frame snips 0 fs op' h
  · rw [if_neg ht] at h
    simp only [setProp] at h
    rcases writeSnippets_obj_frame snips 0 (setKey fs "x-code-samples" (.arr [])) op' h with
      ⟨fs', hop, hfil⟩
    exact ⟨fs', hop, hfil.trans (filter_setKey fs "x-code-samples" (.arr []))⟩

theorem enrichOp_establishes (snips : List Snippet) (op op' : JValue)
    (h : enrichOp snips op = .ok op') : OpSat snips.length op' := by
  unfold enrichOp at h
  cases hv : getProp op "x-code-samples" with
  | error e => rw [hv] at h; simp at h
  | ok cur =>
    rw [hv] at h
    simp only at h
    by_cases ht : truthy cur
    · rw [if_pos ht] at h
      rcases writeSnippets_sat snips 0 op op' cur h hv ht with ⟨v', h1, h2, _, h4⟩
      exact ⟨v', h1, h2, fun i hi => h4 i (Nat.zero_le i) (by simpa using hi)⟩
    · rw [if_neg ht] at h
      cases hs : setProp op "x-code-samples" (.arr []) with
      | error e => rw [hs] at h; simp at h
      | ok op1 =>
        rw [hs] at h
        have hv1 : getProp op1 "x-code-samples" = .ok (.arr []) :=
          getProp_setProp_self op op1 (.arr []) "x-code-samples" hs
        rcases writeSnippets_sat snips 0 op1 op' (.arr []) h hv1 (by simp [truthy]) with
          ⟨v', h1, h2, _, h4⟩
        exact ⟨v', h1, h2, fun i hi => h4 i (Nat.zero_le i) (by simpa using hi)⟩

theorem enrichOp_sat_mono (n : Nat) (snips : List Snippet) (op op' : JValue)
    (hsat : OpSat n op) (h : enrichOp snips op = .ok op') : OpSat n op' := by
  rcases hsat with ⟨v, hv, ht, hts⟩
  unfold enrichOp at h
  rw [hv] at h
  simp only at h
  rw [if_pos ht] at h
  rcases writeSnippets_sat snips 0 op op' v h hv ht with ⟨v', h1, h2, h3, _⟩
  exact ⟨v', h1, h2, fun i hi => h3 i (hts i hi)⟩

theorem enrichOp_fix (snips : List Snippet) (op : JValue)
    (hsat : OpSat snips.length op) : enrichOp snips op = .ok op := by
  rcases hsat with ⟨v, hv, ht, hts⟩
  unfold enrichOp
  rw [hv]
  simp only
  rw [if_pos ht]
  exact writeSnippets_skip snips 0 op v hv
    (fun j h1 h2 => hts j (by simpa using h2))

theorem enrichOp_arr_preserve (snips : List Snippet) (op op' : JValue)
    (xs : List JValue) (j : Nat) (e : JValue)
    (hv : getProp op "x-code-samples" = .ok (.arr xs))
    (hj : xs[j]? = some e) (hte : truthy e = true)
    (h : enrichOp snips op = .ok op') :
    ∃ xs', getProp op' "x-code-samples" = .ok (.arr xs') ∧
      xs'[j]? = some e ∧ xs.length ≤ xs'.length := by
  unfold enrichOp at h
  rw [hv] at h
  simp only at h
  rw [if_pos (by simp [truthy])] at h
  exact writeSnippets_arr_preserve snips 0 op op' xs j e h hv hj hte

theorem enrichOp_arr_overwrite (snips : List Snippet) (op op' : JValue)
    (xs : List JValue) (j : Nat) (e : JValue) (snip : Snippet)
    (hv : getProp op "x-code-samples" = .ok (.arr xs))
    (hj : xs[j]? = some e) (hte : truthy e = false) (hsn : snips[j]? = some snip)
    (h : enrichOp snips op = .ok op') :
    ∃ xs', getProp op' "x-code-samples" = .ok (.arr xs') ∧
      xs'[j]? = some (sampleOf snip) := by
  unfold enrichOp at h
  rw [hv] at h
  simp only at h
  rw [if_pos (by simp [truthy])] at h
  exact writeSnippets_arr_overwrite snips 0 op op' xs j e snip h hv hj hte
    (Nat.zero_le j) (by simpa using hsn)

theorem enrichOp_falsy_init (snips : List Snippet) (fs : List (String × JValue))
    (cur : JValue) (hcur : (getField fs "x-code-samples").getD .undefined = cur)
    (ht : truthy cur = false) :
    enrichOp snips (.obj fs) =
      writeSnippets snips 0 (.obj (setKey fs "x-code-samples" (.arr []))) := by
  unfold enrichOp
  simp only [getProp]
  rw [hcur]
  simp only [ht]
  simp only [setProp]
  simp

/-! ## Schema-level read/write lemmas -/

theorem getKey_error_typeError (v : JValue) (key : JKey) (e : JError)
    (h : getKey v key = .error e) : e = .typeError := by
  cases key with
  | s k =>
    cases v with
    | null => simp [getKey, getProp] at h; exact h.symm
    | undefined => simp [getKey, getProp] at h; exact h.symm
    | obj fs => simp [getKey, getProp] at h
    | arr xs => simp [getKey, getProp] at h
    | str s => simp [getKey, getProp] at h
    | bool b => simp [getKey, getProp] at h
    | num n => simp [getKey, getProp] at h
  | i n =>
    cases v with
    | null => simp [getKey, getIdx] at h; exact h.symm
    | undefined => simp [getKey, getIdx] at h; exact h.symm
    | obj fs => simp [getKey, getIdx] at h
    | arr xs => simp [getKey, getIdx] at h
    | str s => simp [getKey, getIdx] at h
    | bool b => simp [getKey, getIdx] at h
    | num m => simp [getKey, getIdx] at h

theorem getKey_undef (key : JKey) : getKey .undefined key = .error .typeError := by
  cases key <;> simp [getKey, getProp, getIdx]

theorem getOpAt_eq_itemAt (sch paths : JValue) (q r : JKey)
    (h : getProp sch "paths" = .ok paths) :
    getOpAt sch q r = getKey (itemAt sch q) r := by
  unfold getOpAt itemAt pathsOf
  rw [h]
  simp only
  cases hk : getKey paths q with
  | ok item => simp
  | error e =>
    have he := getKey_error_typeError paths q e hk
    subst he
    simp [getKey_undef]

theorem getField_of_getProp_obj (fs : List (String × JValue)) (k : String) (x : JValue)
    (h : getProp (.obj fs) k = .ok x) (hx : x ≠ .undefined) : getField fs k = some x := by
  simp [getProp] at h
  cases hf : getField fs k with
  | none => rw [hf] at h; simp at h; exact absurd h.symm hx
  | some w => rw [hf] at h; simp at h; rw [h]

theorem forInKeys_obj_mem (fs : List (String × JValue)) (q : JKey)
    (h : q ∈ forInKeys (.obj fs)) : ∃ k, q = .s k ∧ k ∈ fs.map Prod.fst := by
  simp only [forInKeys] at h
  rcases List.mem_map.mp h with ⟨kv, hmem, hq⟩
  exact ⟨kv.1, hq.symm, List.mem_map.mpr ⟨kv, hmem, rfl⟩⟩

theorem forInKeys_arr_mem (xs : List JValue) (q : JKey)
    (h : q ∈ forInKeys (.arr xs)) : ∃ n, q = .i n ∧ n < xs.length := by
  simp only [forInKeys] at h
  rcases List.mem_map.mp h with ⟨n, hmem, hq⟩
  exact ⟨n, hq.symm, by simpa using List.mem_range.mp hmem⟩

theorem getKey_setKeyV_ne (c c' x : JValue) (key q : JKey)
    (h : setKeyV c key x = .ok c') (hq : q ∈ forInKeys c) (hk : key ∈ forInKeys c)
    (hne : q ≠ key) : getKey c' q = getKey c q := by
  cases c with
  | obj fs =>
    rcases forInKeys_obj_mem fs q hq with ⟨qk, hq1, _⟩
    rcases forInKeys_obj_mem fs key hk with ⟨kk, hk1, _⟩
    subst hq1; subst hk1
    have hne' : qk ≠ kk := fun hh => hne (by rw [hh])
    simp [setKeyV, setProp] at h
    subst h
    simp [getKey, getProp, getField_setKey_ne fs kk qk x hne']
  | arr xs =>
    rcases forInKeys_arr_mem xs q hq with ⟨qn, hq1, hqlt⟩
    rcases forInKeys_arr_mem xs key hk with ⟨kn, hk1, _⟩
    subst hq1; subst hk1
    have hne' : qn ≠ kn := fun hh => hne (by rw [hh])
    simp [setKeyV, setIdxV] at h
    subst h
    simp [getKey, getIdx, get_setIdx_lt xs kn qn x hqlt hne']
  | null => simp [forInKeys] at hq
  | undefined => simp [forInKeys] at hq
  | bool b => simp [forInKeys] at hq
  | num n => simp [forInKeys] at hq
  | str s =>
    cases key with
    | s k => simp [setKeyV, setProp] at h
    | i n => simp [setKeyV, setIdxV] at h

theorem forInKeys_setKeyV (c c' x : JValue) (key : JKey)
    (h : setKeyV c key x = .ok c') (hk : key ∈ forInKeys c) :
    forInKeys c' = forInKeys c := by
  cases c with
  | obj fs =>
    rcases forInKeys_obj_mem fs key hk with ⟨kk, hk1, hmem⟩
    subst hk1
    simp [setKeyV, setProp] at h
    subst h
    have hsome := getField_isSome_of_mem fs kk hmem
    simp only [forInKeys]
    have := map_fst_setKey fs kk x hsome
    calc (setKey fs kk x).map (fun kv => JKey.s kv.1)
        = ((setKey fs kk x).map Prod.fst).map JKey.s := by simp [List.map_map]
      _ = (fs.map Prod.fst).map JKey.s := by rw [this]
      _ = fs.map (fun kv => JKey.s kv.1) := by simp [List.map_map]
  | arr xs =>
    rcases forInKeys_arr_mem xs key hk with ⟨kn, hk1, hlt⟩
    subst hk1
    simp [setKeyV, setIdxV] at h
    subst h
    simp [forInKeys, length_setIdx_of_lt xs kn x hlt]
  | null => simp [forInKeys] at hk
  | undefined => simp [forInKeys] at hk
  | bool b => simp [forInKeys] at hk
  | num n => simp [forInKeys] at hk
  | str s =>
    cases key with
    | s k => simp [setKeyV, setProp] at h
    | i n => simp [setKeyV, setIdxV] at h

theorem isContainer_ne_undef (v : JValue) (h : isContainer v) : v ≠ .undefined := by
  cases v <;> simp [isContainer] at h ⊢

theorem pathsOf_eq (sch paths : JValue) (h : getProp sch "paths" = .ok paths) :
    pathsOf sch = paths := by
  unfold pathsOf
  rw [h]

theorem itemAt_eq (sch paths item : JValue) (p : JKey)
    (h : getProp sch "paths" = .ok paths) (h2 : getKey paths p = .ok item) :
    itemAt sch p = item := by
  unfold itemAt
  rw [pathsOf_eq sch paths h, h2]

theorem setOpAt_decomp (sch sch' w : JValue) (p m : JKey)
    (h : setOpAt sch p m w = .ok sch') :
    ∃ paths item item1 paths1,
      getProp sch "paths" = .ok paths ∧ getKey paths p = .ok item ∧
      setKeyV item m w = .ok item1 ∧ setKeyV paths p item1 = .ok paths1 ∧
      setProp sch "paths" paths1 = .ok sch' := by
  unfold setOpAt at h
  cases h1 : getProp sch "paths" with
  | error e => rw [h1] at h; simp at h
  | ok paths =>
    rw [h1] at h
    simp only at h
    cases h2 : getKey paths p with
    | error e => rw [h2] at h; simp at h
    | ok item =>
      rw [h2] at h
      simp only at h
      cases h3 : setKeyV item m w with
      | error e => rw [h3] at h; simp at h
      | ok item1 =>
        rw [h3] at h
        simp only at h
        cases h4 : setKeyV paths p item1 with
        | error e => rw [h4] at h; simp at h
        | ok paths1 =>
          rw [h4] at h
          simp only at h
          exact ⟨paths, item, item1, paths1, rfl, h2, h3, h4, h⟩

theorem getOpAt_decomp (sch op : JValue) (p m : JKey)
    (h : getOpAt sch p m = .ok op) :
    ∃ paths item, getProp sch "paths" = .ok paths ∧ getKey paths p = .ok item ∧
      getKey item m = .ok op := by
  unfold getOpAt at h
  cases h1 : getProp sch "paths" with
  | error e => rw [h1] at h; simp at h
  | ok paths =>
    rw [h1] at h
    simp only at h
    cases h2 : getKey paths p with
    | error e => rw [h2] at h; simp at h
    | ok item =>
      rw [h2] at h
      simp only at h
      exact ⟨paths, item, rfl, h2, h⟩

theorem enrichMethod_decomp (gen : Generator) (ts : List String) (p m : JKey)
    (sch sch' : JValue) (h : enrichMethod gen ts p sch m = .ok sch') :
    ∃ op op1, getOpAt sch p m = .ok op ∧
      enrichOp (gen sch (keyStr p) (keyStr m) ts) op = .ok op1 ∧
      setOpAt sch p m op1 = .ok sch' := by
  unfold enrichMethod at h
  cases h1 : getOpAt sch p m with
  | error e => rw [h1] at h; simp at h
  | ok op =>
    rw [h1] at h
    simp only at h
    cases h2 : enrichOp (gen sch (keyStr p) (keyStr m) ts) op with
    | error e => rw [h2] at h; simp at h
    | ok op1 =>
      rw [h2] at h
      simp only at h
      exact ⟨op, op1, rfl, h2, h⟩

theorem setOpAt_spec (sch sch' w : JValue) (p m : JKey)
    (h : setOpAt sch p m w = .ok sch')
    (hp : p ∈ forInKeys (pathsOf sch)) (hm : m ∈ forInKeys (itemAt sch p)) :
    (∃ fs', sch' = .obj fs' ∧ getField fs' "paths" = some (pathsOf sch')) ∧
    forInKeys (pathsOf sch') = forInKeys (pathsOf sch) ∧
    (∀ q, q ∈ forInKeys (pathsOf sch) → q ≠ p → itemAt sch' q = itemAt sch q) ∧
    forInKeys (itemAt sch' p) = forInKeys (itemAt sch p) ∧
    (∀ r, r ∈ forInKeys (itemAt sch p) → r ≠ m →
      getKey (itemAt sch' p) r = getKey (itemAt sch p) r) ∧
    getKey (itemAt sch' p) m = .ok w := by
  rcases setOpAt_decomp sch sch' w p m h with ⟨paths, item, item1, paths1, h1, h2, h3, h4, h5⟩
  have hpe := pathsOf_eq sch paths h1
  have hie := itemAt_eq sch paths item p h1 h2
  have hpaths' : getProp sch' "paths" = .ok paths1 :=
    getProp_setProp_self sch sch' paths1 "paths" h5
  have hpe' := pathsOf_eq sch' paths1 hpaths'
  have hitem1 : getKey paths1 p = .ok item1 := getKey_setKeyV_self paths paths1 item1 p h4
  have hie' : itemAt sch' p = item1 := itemAt_eq sch' paths1 item1 p hpaths' hitem1
  rw [hpe] at hp
  rw [hie] at hm
  refine ⟨?_, ?_, ?_, ?_, ?_, ?_⟩
  · -- sch' is an object exposing "paths"
    cases sch with
    | obj fs =>
      simp [setProp] at h5
      refine ⟨setKey fs "paths" paths1, h5.symm, ?_⟩
      rw [hpe', getField_setKey_self]
    | arr xs =>
      have : jsIndex? "paths" = none := by decide
      simp [setProp, this] at h5
    | null => simp [setProp] at h5
    | undefined => simp [setProp] at h5
    | bool b => simp [setProp] at h5
    | num n => simp [setProp] at h5
    | str s => simp [setProp] at h5
  · rw [hpe', hpe]
    exact forInKeys_setKeyV paths paths1 item1 p h4 hp
  · intro q hq hqp
    rw [hpe] at hq
    have := getKey_setKeyV_ne paths paths1 item1 p q h4 hq hp hqp
    unfold itemAt
    rw [hpe', hpe, this]
  · rw [hie', hie]
    exact forInKeys_setKeyV item item1 w m h3 hm
  · intro r hr hrm
    rw [hie] at hr
    rw [hie', hie]
    exact getKey_setKeyV_ne item item1 w m r h3 hr hm hrm
  · rw [hie']
    exact getKey_setKeyV_self item item1 w m h3

theorem setOpAt_id (sch op : JValue) (p m : JKey)
    (h : getOpAt sch p m = .ok op) (fsop : List (String × JValue)) (hop : op = .obj fsop) :
    setOpAt sch p m op = .ok sch := by
  rcases getOpAt_decomp sch op p m h with ⟨paths, item, h1, h2, h3⟩
  have hopc : isContainer op := by rw [hop]; simp [isContainer]
  have hitemc : isContainer item := getKey_ok_container item op m h3 hopc
  have hpathsc : isContainer paths := getKey_ok_container paths item p h2 hitemc
  have hset3 : setKeyV item m op = .ok item :=
    setKeyV_eq_self item op m h3 (by rw [hop]; intro hh; exact JValue.noConfusion hh) hitemc
  have hset4 : setKeyV paths p item = .ok paths :=
    setKeyV_eq_self paths item p h2 (isContainer_ne_undef item hitemc) hpathsc
  have hnone : jsIndex? "paths" = none := by decide
  rcases getProp_ok_obj_of_container sch paths "paths" h1 hpathsc hnone with ⟨fs, hsch, hf⟩
  subst hsch
  have hset5 : setProp (.obj fs) "paths" paths = .ok (.obj fs) := by
    simp [setProp, setKey_eq_self fs "paths" paths hf]
  unfold setOpAt
  rw [h1]
  simp only
  rw [h2]
  simp only
  rw [hset3]
  simp only
  rw [hset4]
  simp only
  exact hset5

theorem getOpAt_setOpAt_self (sch sch' w : JValue) (p m : JKey)
    (h : setOpAt sch p m w = .ok sch')
    (hp : p ∈ forInKeys (pathsOf sch)) (hm : m ∈ forInKeys (itemAt sch p)) :
    getOpAt sch' p m = .ok w := by
  rcases setOpAt_spec sch sch' w p m h hp hm with ⟨⟨fs', hobj, hf⟩, _, _, _, _, h6⟩
  subst hobj
  have hpaths' : getProp (JValue.obj fs') "paths" = .ok (pathsOf (JValue.obj fs')) := by
    simp [getProp, hf]
  rw [getOpAt_eq_itemAt (JValue.obj fs') (pathsOf (JValue.obj fs')) p m hpaths']
  exact h6

theorem getOpAt_setOpAt_frame (sch sch' w : JValue) (p m q r : JKey)
    (h : setOpAt sch p m w = .ok sch')
    (hp : p ∈ forInKeys (pathsOf sch)) (hm : m ∈ forInKeys (itemAt sch p))
    (hq : q ∈ forInKeys (pathsOf sch))
    (hcase : q ≠ p ∨ (q = p ∧ r ∈ forInKeys (itemAt sch p) ∧ r ≠ m)) :
    getOpAt sch' q r = getOpAt sch q r := by
  rcases setOpAt_decomp sch sch' w p m h with ⟨paths, item, item1, paths1, h1, _, _, _, h5⟩
  rcases setOpAt_spec sch sch' w p m h hp hm with ⟨⟨fs', hobj, hf⟩, _, h3, _, h5', _⟩
  subst hobj
  have hpaths' : getProp (JValue.obj fs') "paths" = .ok (pathsOf (JValue.obj fs')) := by
    simp [getProp, hf]
  rw [getOpAt_eq_itemAt (JValue.obj fs') (pathsOf (JValue.obj fs')) q r hpaths']
  rw [getOpAt_eq_itemAt sch paths q r h1]
  rcases hcase with hne | ⟨heq, hr, hrm⟩
  · rw [h3 q hq hne]
  · subst heq
    exact h5' r hr hrm

theorem getKey_ok_of_mem (c : JValue) (key : JKey) (h : key ∈ forInKeys c) :
    ∃ x, getKey c key = .ok x := by
  cases c with
  | obj fs =>
    cases key with
    | s k => exact ⟨_, rfl⟩
    | i n => exact ⟨_, rfl⟩
  | arr xs =>
    cases key with
    | s k =>
      rcases forInKeys_arr_mem xs (.s k) h with ⟨n, hn, _⟩
      exact JKey.noConfusion hn
    | i n => exact ⟨_, rfl⟩
  | str st =>
    cases key with
    | s k =>
      simp only [forInKeys] at h
      rcases List.mem_map.mp h with ⟨n, _, hq⟩
      exact JKey.noConfusion hq
    | i n => exact ⟨_, rfl⟩
  | null => simp [forInKeys] at h
  | undefined => simp [forInKeys] at h
  | bool b => simp [forInKeys] at h
  | num n => simp [forInKeys] at h

theorem foldE_method_spec (gen : Generator) (ts : List String) (p' : JKey)
    (P : JValue → Prop)
    (hP : ∀ snips op op', P op → enrichOp snips op = .ok op' → P op') :
    ∀ (ms : List JKey) (sch sch' : JValue),
    foldE (enrichMethod gen ts p') sch ms = .ok sch' →
    p' ∈ forInKeys (pathsOf sch) →
    (∀ m'', m'' ∈ ms → m'' ∈ forInKeys (itemAt sch p')) →
    forInKeys (pathsOf sch') = forInKeys (pathsOf sch) ∧
    (∀ q, q ∈ forInKeys (pathsOf sch) → q ≠ p' → itemAt sch' q = itemAt sch q) ∧
    forInKeys (itemAt sch' p') = forInKeys (itemAt sch p') ∧
    (sch' = sch ∨ ∃ fs', sch' = .obj fs' ∧ getField fs' "paths" = some (pathsOf sch')) ∧
    (∀ q r, q ∈ forInKeys (pathsOf sch) → r ∈ forInKeys (itemAt sch q) →
      SlotPred P q r sch → SlotPred P q r sch') := by
  intro ms
  induction ms with
  | nil =>
    intro sch sch' h hp' hms
    simp [foldE] at h
    subst h
    exact ⟨rfl, fun q _ _ => rfl, rfl, Or.inl rfl, fun q r _ _ hs => hs⟩
  | cons m0 rest ih =>
    intro sch sch' h hp' hms
    simp only [foldE] at h
    cases h0 : enrichMethod gen ts p' sch m0 with
    | error e => rw [h0] at h; simp at h
    | ok sch1 =>
      rw [h0] at h
      simp only at h
      have hm0 : m0 ∈ forInKeys (itemAt sch p') := hms m0 (by simp)
      rcases enrichMethod_decomp gen ts p' m0 sch sch1 h0 with ⟨op, op1, hget, hop, hset⟩
      rcases setOpAt_spec sch sch1 op1 p' m0 hset hp' hm0 with
        ⟨hobj1, hkeys1, hitems1, hkeysp1, hframe1, hself1⟩
      -- transfer hypotheses to sch1
      have hp1 : p' ∈ forInKeys (pathsOf sch1) := by rw [hkeys1]; exact hp'
      have hms1 : ∀ m'', m'' ∈ rest → m'' ∈ forInKeys (itemAt sch1 p') := by
        intro m'' hmem
        rw [hkeysp1]
        exact hms m'' (by simp [hmem])
      rcases ih sch1 sch' h hp1 hms1 with ⟨ihkeys, ihitems, ihkeysp, ihobj, ihslot⟩
      refine ⟨?_, ?_, ?_, ?_, ?_⟩
      · rw [ihkeys, hkeys1]
      · intro q hq hqp
        have hq1 : q ∈ forInKeys (pathsOf sch1) := by rw [hkeys1]; exact hq
        rw [ihitems q hq1 hqp, hitems1 q hq hqp]
      · rw [ihkeysp, hkeysp1]
      · rcases ihobj with heq | ⟨fs', hobj', hf'⟩
        · subst heq
          exact Or.inr hobj1
        · exact Or.inr ⟨fs', hobj', hf'⟩
      · intro q r hq hr hs
        have hq1 : q ∈ forInKeys (pathsOf sch1) := by rw [hkeys1]; exact hq
        have hr1 : r ∈ forInKeys (itemAt sch1 q) := by
          by_cases hqp : q = p'
          · subst hqp
            rw [hkeysp1]
            exact hr
          · rw [hitems1 q hq hqp]
            exact hr
        refine ihslot q r hq1 hr1 ?_
        -- one step preserves the slot
        by_cases hqp : q = p'
        · subst hqp
          by_cases hrm : r = m0
          · subst hrm
            rcases hs with ⟨op0, hop0, hP0⟩
            have : op0 = op := by
              rw [hop0] at hget
              exact (Except.ok.injEq _ _).mp hget
            subst this
            exact ⟨op1, getOpAt_setOpAt_self sch sch1 op1 q r hset hp' hm0,
              hP _ op0 op1 hP0 hop⟩
          · rcases hs with ⟨op0, hop0, hP0⟩
            refine ⟨op0, ?_, hP0⟩
            rw [getOpAt_setOpAt_frame sch sch1 op1 q m0 q r hset hp' hm0 hq
              (Or.inr ⟨rfl, hr, hrm⟩)]
            exact hop0
        · rcases hs with ⟨op0, hop0, hP0⟩
          refine ⟨op0, ?_, hP0⟩
          rw [getOpAt_setOpAt_frame sch sch1 op1 p' m0 q r hset hp' hm0 hq (Or.inl hqp)]
          exact hop0

theorem enrichPath_decomp (gen : Generator) (ts : List String) (sch sch' : JValue) (p' : JKey)
    (h : enrichPath gen ts sch p' = .ok sch') :
    ∃ paths item, getProp sch "paths" = .ok paths ∧ getKey paths p' = .ok item ∧
      foldE (enrichMethod gen ts p') sch (forInKeys item) = .ok sch' := by
  unfold enrichPath at h
  cases h1 : getProp sch "paths" with
  | error e => rw [h1] at h; simp at h
  | ok paths =>
    rw [h1] at h
    simp only at h
    cases h2 : getKey paths p' with
    | error e => rw [h2] at h; simp at h
    | ok item =>
      rw [h2] at h
      simp only at h
      exact ⟨paths, item, rfl, h2, h⟩

theorem foldE_path_spec (gen : Generator) (ts : List String) (P : JValue → Prop)
    (hP : ∀ snips op op', P op → enrichOp snips op = .ok op' → P op') :
    ∀ (ps : List JKey) (sch sch' : JValue),
    foldE (enrichPath gen ts) sch ps = .ok sch' →
    (∀ p'', p'' ∈ ps → p'' ∈ forInKeys (pathsOf sch)) →
    forInKeys (pathsOf sch') = forInKeys (pathsOf sch) ∧
    (∀ q, q ∈ forInKeys (pathsOf sch) → forInKeys (itemAt sch' q) = forInKeys (itemAt sch q)) ∧
    (sch' = sch ∨ ∃ fs', sch' = .obj fs' ∧ getField fs' "paths" = some (pathsOf sch')) ∧
    (∀ q r, q ∈ forInKeys (pathsOf sch) → r ∈ forInKeys (itemAt sch q) →
      SlotPred P q r sch → SlotPred P q r sch') := by
  intro ps
  induction ps with
  | nil =>
    intro sch sch' h hps
    simp [foldE] at h
    subst h
    exact ⟨rfl, fun q _ => rfl, Or.inl rfl, fun q r _ _ hs => hs⟩
  | cons p0 rest ih =>
    intro sch sch' h hps
    simp only [foldE] at h
    cases h0 : enrichPath gen ts sch p0 with
    | error e => rw [h0] at h; simp at h
    | ok sch1 =>
      rw [h0] at h
      simp only at h
      have hp0 : p0 ∈ forInKeys (pathsOf sch) := hps p0 (by simp)
      rcases enrichPath_decomp gen ts sch sch1 p0 h0 with ⟨paths, item, h1, h2, hfold⟩
      have hie : itemAt sch p0 = item := itemAt_eq sch paths item p0 h1 h2
      have hms : ∀ m'', m'' ∈ forInKeys item → m'' ∈ forInKeys (itemAt sch p0) := by
        intro m'' hmem
        rw [hie]
        exact hmem
      rcases foldE_method_spec gen ts p0 P hP (forInKeys item) sch sch1 hfold hp0 hms with
        ⟨hkeys1, hitems1, hkeysp1, hobj1, hslot1⟩
      have hps1 : ∀ p'', p'' ∈ rest → p'' ∈ forInKeys (pathsOf sch1) := by
        intro p'' hmem
        rw [hkeys1]
        exact hps p'' (by simp [hmem])
      rcases ih sch1 sch' h hps1 with ⟨ihkeys, ihitems, ihobj, ihslot⟩
      have hitemsAll : ∀ q, q ∈ forInKeys (pathsOf sch) →
          forInKeys (itemAt sch1 q) = forInKeys (itemAt sch q) := by
        intro q hq
        by_cases hqp : q = p0
        · subst hqp
          exact hkeysp1
        · rw [hitems1 q hq hqp]
      refine ⟨?_, ?_, ?_, ?_⟩
      · rw [ihkeys, hkeys1]
      · intro q hq
        have hq1 : q ∈ forInKeys (pathsOf sch1) := by rw [hkeys1]; exact hq
        rw [ihitems q hq1, hitemsAll q hq]
      · rcases ihobj with heq | hh
        · subst heq
          rcases hobj1 with heq1 | hh1
          · exact Or.inl heq1
          · exact Or.inr hh1
        · exact Or.inr hh
      · intro q r hq hr hs
        have hq1 : q ∈ forInKeys (pathsOf sch1) := by rw [hkeys1]; exact hq
        have hr1 : r ∈ forInKeys (itemAt sch1 q) := by rw [hitemsAll q hq]; exact hr
        exact ihslot q r hq1 hr1 (hslot1 q r hq hr hs)

theorem foldE_method_establish (gen : Generator) (ts : List String) (p' : JKey)
    (Hgen : ∀ s a b, gen s a b ts = gen .null a b ts) :
    ∀ (ms : List JKey) (sch sch' : JValue),
    foldE (enrichMethod gen ts p') sch ms = .ok sch' →
    p' ∈ forInKeys (pathsOf sch) →
    (∀ m'', m'' ∈ ms → m'' ∈ forInKeys (itemAt sch p')) →
    ∀ m'', m'' ∈ ms →
    SlotPred (OpSat (gen .null (keyStr p') (keyStr m'') ts).length) p' m'' sch' := by
  intro ms
  induction ms with
  | nil =>
    intro sch sch' h hp' hms m'' hmem
    simp at hmem
  | cons m0 rest ih =>
    intro sch sch' h hp' hms m'' hmem
    simp only [foldE] at h
    cases h0 : enrichMethod gen ts p' sch m0 with
    | error e => rw [h0] at h; simp at h
    | ok sch1 =>
      rw [h0] at h
      simp only at h
      have hm0 : m0 ∈ forInKeys (itemAt sch p') := hms m0 (by simp)
      rcases enrichMethod_decomp gen ts p' m0 sch sch1 h0 with ⟨op, op1, hget, hop, hset⟩
      rcases setOpAt_spec sch sch1 op1 p' m0 hset hp' hm0 with
        ⟨_, hkeys1, _, hkeysp1, _, _⟩
      have hp1 : p' ∈ forInKeys (pathsOf sch1) := by rw [hkeys1]; exact hp'
      have hms1 : ∀ mm, mm ∈ rest → mm ∈ forInKeys (itemAt sch1 p') := by
        intro mm hmem'
        rw [hkeysp1]
        exact hms mm (by simp [hmem'])
      rcases List.mem_cons.mp hmem with heq | hrest
      · -- m'' = m0 : established by this step, preserved by the rest of the fold
        subst heq
        have hsat1 : OpSat (gen .null (keyStr p') (keyStr m'') ts).length op1 := by
          have := enrichOp_establishes (gen sch (keyStr p') (keyStr m'') ts) op op1 hop
          rwa [Hgen sch (keyStr p') (keyStr m'')] at this
        have hslot1 : SlotPred (OpSat (gen .null (keyStr p') (keyStr m'') ts).length)
            p' m'' sch1 :=
          ⟨op1, getOpAt_setOpAt_self sch sch1 op1 p' m'' hset hp' hm0, hsat1⟩
        have hm0' : m'' ∈ forInKeys (itemAt sch1 p') := by
          rw [hkeysp1]
          exact hm0
        rcases foldE_method_spec gen ts p'
          (OpSat (gen .null (keyStr p') (keyStr m'') ts).length)
          (fun snips op op' hs hh => enrichOp_sat_mono _ snips op op' hs hh)
          rest sch1 sch' h hp1 hms1 with ⟨_, _, _, _, hslot⟩
        exact hslot p' m'' hp1 hm0' hslot1
      · exact ih sch1 sch' h hp1 hms1 m'' hrest

theorem foldE_path_establish (gen : Generator) (ts : List String)
    (Hgen : ∀ s a b, gen s a b ts = gen .null a b ts) :
    ∀ (ps : List JKey) (sch sch' : JValue),
    foldE (enrichPath gen ts) sch ps = .ok sch' →
    (∀ p'', p'' ∈ ps → p'' ∈ forInKeys (pathsOf sch)) →
    ∀ p'', p'' ∈ ps → ∀ r, r ∈ forInKeys (itemAt sch' p'') →
    SlotPred (OpSat (gen .null (keyStr p'') (keyStr r) ts).length) p'' r sch' := by
  intro ps
  induction ps with
  | nil =>
    intro sch sch' h hps p'' hmem
    simp at hmem
  | cons p0 rest ih =>
    intro sch sch' h hps p'' hmem r hr
    simp only [foldE] at h
    cases h0 : enrichPath gen ts sch p0 with
    | error e => rw [h0] at h; simp at h
    | ok sch1 =>
      rw [h0] at h
      simp only at h
      have hp0 : p0 ∈ forInKeys (pathsOf sch) := hps p0 (by simp)
      rcases enrichPath_decomp gen ts sch sch1 p0 h0 with ⟨paths, item, h1, h2, hfold⟩
      have hie : itemAt sch p0 = item := itemAt_eq sch paths item p0 h1 h2
      have hms : ∀ m'', m'' ∈ forInKeys item → m'' ∈ forInKeys (itemAt sch p0) := by
        intro m'' hmem'
        rw [hie]
        exact hmem'
      rcases foldE_method_spec gen ts p0 (fun _ => True) (fun _ _ _ _ _ => trivial)
        (forInKeys item) sch sch1 hfold hp0 hms with ⟨hkeys1, hitems1, hkeysp1, _, _⟩
      have hps1 : ∀ pp, pp ∈ rest → pp ∈ forInKeys (pathsOf sch1) := by
        intro pp hmem'
        rw [hkeys1]
        exact hps pp (by simp [hmem'])
      have hitemsAll : ∀ q, q ∈ forInKeys (pathsOf sch) →
          forInKeys (itemAt sch1 q) = forInKeys (itemAt sch q) := by
        intro q hq
        by_cases hqp : q = p0
        · subst hqp
          exact hkeysp1
        · rw [hitems1 q hq hqp]
      rcases List.mem_cons.mp hmem with heq | hrest
      · -- p'' = p0 : its methods were all established when p0 was processed
        subst heq
        -- r is a method key of the final item, hence of the original one
        rcases foldE_path_spec gen ts (fun _ => True) (fun _ _ _ _ _ => trivial)
          rest sch1 sch' h hps1 with ⟨_, ihitems, _, _⟩
        have hp1 : p'' ∈ forInKeys (pathsOf sch1) := by rw [hkeys1]; exact hp0
        have hrorig : r ∈ forInKeys (itemAt sch p'') := by
          have h3 := ihitems p'' hp1
          rw [h3] at hr
          rw [← hitemsAll p'' hp0]
          exact hr
        have hr0 : r ∈ forInKeys item := by rw [← hie]; exact hrorig
        have hest := foldE_method_establish gen ts p'' Hgen (forInKeys item) sch sch1
          hfold hp0 hms r hr0
        have hr1 : r ∈ forInKeys (itemAt sch1 p'') := by
          rw [hitemsAll p'' hp0]
          exact hrorig
        rcases foldE_path_spec gen ts
          (OpSat (gen .null (keyStr p'') (keyStr r) ts).length)
          (fun snips op op' hs hh => enrichOp_sat_mono _ snips op op' hs hh)
          rest sch1 sch' h hps1 with ⟨_, _, _, hslot⟩
        exact hslot p'' r hp1 hr1 hest
      · exact ih sch1 sch' h hps1 p'' hrest r hr

theorem hasPathsProperty_ok_true (s : JValue) (h : hasPathsProperty s = .ok true) :
    ∃ fs, s = .obj fs ∧ (getField fs "paths").isSome := by
  cases s with
  | obj fs =>
    simp [hasPathsProperty] at h
    exact ⟨fs, rfl, h⟩
  | null => simp [hasPathsProperty] at h
  | undefined => simp [hasPathsProperty] at h
  | bool b => simp [hasPathsProperty] at h
  | num n => simp [hasPathsProperty] at h
  | str st => simp [hasPathsProperty] at h
  | arr xs => simp [hasPathsProperty] at h

theorem enrichSchema_decomp (gen : Generator) (ts : List String) (s s₁ : JValue)
    (h : enrichSchema gen ts s = .ok s₁) :
    hasPathsProperty s = .ok true ∧ ∃ paths, getProp s "paths" = .ok paths ∧
      foldE (enrichPath gen ts) s (forInKeys paths) = .ok s₁ := by
  unfold enrichSchema at h
  cases h1 : hasPathsProperty s with
  | error e => rw [h1] at h; simp at h
  | ok b =>
    rw [h1] at h
    cases b with
    | false => simp at h
    | true =>
      simp only at h
      cases h2 : getProp s "paths" with
      | error e => rw [h2] at h; simp at h
      | ok paths =>
        rw [h2] at h
        simp only at h
        exact ⟨rfl, paths, rfl, h⟩

theorem enrichSchema_establish (gen : Generator) (ts : List String)
    (Hgen : ∀ s a b, gen s a b ts = gen .null a b ts) (s s₁ : JValue)
    (h : enrichSchema gen ts s = .ok s₁) :
    hasPathsProperty s₁ = .ok true ∧
    (∀ p, p ∈ forInKeys (pathsOf s₁) → ∀ m, m ∈ forInKeys (itemAt s₁ p) →
      SlotPred (OpSat (gen .null (keyStr p) (keyStr m) ts).length) p m s₁) := by
  rcases enrichSchema_decomp gen ts s s₁ h with ⟨hh, paths, h2, hfold⟩
  have hpe := pathsOf_eq s paths h2
  have hps : ∀ p'', p'' ∈ forInKeys paths → p'' ∈ forInKeys (pathsOf s) := by
    intro p'' hmem
    rw [hpe]
    exact hmem
  rcases foldE_path_spec gen ts (fun _ => True) (fun _ _ _ _ _ => trivial)
    (forInKeys paths) s s₁ hfold hps with ⟨hkeys, _, hobj, _⟩
  constructor
  · rcases hobj with heq | ⟨fs', hobj', hf'⟩
    · rw [heq]
      exact hh
    · rw [hobj']
      simp [hasPathsProperty, hf']
  · intro p hp m hm
    have hp' : p ∈ forInKeys paths := by
      rw [hkeys, hpe] at hp
      exact hp
    exact foldE_path_establish gen ts Hgen (forInKeys paths) s s₁ hfold hps p hp' m hm

theorem enrichMethod_fix (gen : Generator) (ts : List String)
    (Hgen : ∀ s a b, gen s a b ts = gen .null a b ts) (p m : JKey) (s₁ op : JValue)
    (hop : getOpAt s₁ p m = .ok op)
    (hsat : OpSat (gen .null (keyStr p) (keyStr m) ts).length op) :
    enrichMethod gen ts p s₁ m = .ok s₁ := by
  have hfix : enrichOp (gen s₁ (keyStr p) (keyStr m) ts) op = .ok op := by
    rw [Hgen s₁ (keyStr p) (keyStr m)]
    exact enrichOp_fix _ op hsat
  rcases hsat with ⟨v, hv, ht, _⟩
  rcases truthy_getProp_obj op v hv ht with ⟨fsop, hopobj, _⟩
  unfold enrichMethod
  rw [hop]
  simp only
  rw [hfix]
  simp only
  exact setOpAt_id s₁ op p m hop fsop hopobj

theorem foldE_method_fix (gen : Generator) (ts : List String)
    (Hgen : ∀ s a b, gen s a b ts = gen .null a b ts) (p : JKey) (s₁ : JValue) :
    ∀ ms : List JKey,
    (∀ m'', m'' ∈ ms →
      SlotPred (OpSat (gen .null (keyStr p) (keyStr m'') ts).length) p m'' s₁) →
    foldE (enrichMethod gen ts p) s₁ ms = .ok s₁ := by
  intro ms
  induction ms with
  | nil => intro _; simp [foldE]
  | cons m0 rest ih =>
    intro hsat
    rcases hsat m0 (by simp) with ⟨op, hop, hopsat⟩
    simp only [foldE]
    rw [enrichMethod_fix gen ts Hgen p m0 s₁ op hop hopsat]
    simp only
    exact ih (fun m'' hmem => hsat m'' (by simp [hmem]))

theorem enrichPath_fix (gen : Generator) (ts : List String)
    (Hgen : ∀ s a b, gen s a b ts = gen .null a b ts) (p : JKey) (s₁ paths₁ : JValue)
    (hpaths : getProp s₁ "paths" = .ok paths₁) (hp : p ∈ forInKeys paths₁)
    (hsat : ∀ m'', m'' ∈ forInKeys (itemAt s₁ p) →
      SlotPred (OpSat (gen .null (keyStr p) (keyStr m'') ts).length) p m'' s₁) :
    enrichPath gen ts s₁ p = .ok s₁ := by
  rcases getKey_ok_of_mem paths₁ p hp with ⟨item, hitem⟩
  have hie : itemAt s₁ p = item := itemAt_eq s₁ paths₁ item p hpaths hitem
  unfold enrichPath
  rw [hpaths]
  simp only
  rw [hitem]
  simp only
  apply foldE_method_fix gen ts Hgen p s₁ (forInKeys item)
  intro m'' hmem
  exact hsat m'' (by rw [hie]; exact hmem)

theorem enrichSchema_fix (gen : Generator) (ts : List String)
    (Hgen : ∀ s a b, gen s a b ts = gen .null a b ts) (s₁ : JValue)
    (h1 : hasPathsProperty s₁ = .ok true)
    (hsat : ∀ p, p ∈ forInKeys (pathsOf s₁) → ∀ m, m ∈ forInKeys (itemAt s₁ p) →
      SlotPred (OpSat (gen .null (keyStr p) (keyStr m) ts).length) p m s₁) :
    enrichSchema gen ts s₁ = .ok s₁ := by
  cases h2 : getProp s₁ "paths" with
  | error e =>
    rcases hasPathsProperty_ok_true s₁ h1 with ⟨fs, hobj, _⟩
    rw [hobj] at h2
    simp [getProp] at h2
  | ok paths₁ =>
    have hpe := pathsOf_eq s₁ paths₁ h2
    unfold enrichSchema
    rw [h1]
    simp only
    rw [h2]
    simp only
    -- every path iteration is the identity
    have : ∀ ps : List JKey, (∀ p'', p'' ∈ ps → p'' ∈ forInKeys paths₁) →
        foldE (enrichPath gen ts) s₁ ps = .ok s₁ := by
      intro ps
      induction ps with
      | nil => intro _; simp [foldE]
      | cons p0 rest ih =>
        intro hps
        simp only [foldE]
        rw [enrichPath_fix gen ts Hgen p0 s₁ paths₁ h2 (hps p0 (by simp))
          (fun m'' hmem => hsat p0 (by rw [hpe]; exact hps p0 (by simp)) m'' hmem)]
        simp only
        exact ih (fun p'' hmem => hps p'' (by simp [hmem]))
    exact this (forInKeys paths₁) (fun p'' hmem => hmem)

/-! ## Scrub (frame) lemmas -/

theorem getD_undef_some (o : Option JValue) (x : JValue)
    (h : o.getD .undefined = x) (hx : x ≠ .undefined) : o = some x := by
  cases o with
  | none => simp at h; exact absurd h.symm hx
  | some w => simp at h; rw [h]

theorem scrub_setKeyV (F : JValue → JValue) (c c' x x' : JValue) (key : JKey)
    (h : setKeyV c key x' = .ok c') (hget : getKey c key = .ok x) (hx : x ≠ .undefined)
    (hF : F x' = F x) : mapMembers F c' = mapMembers F c := by
  cases c with
  | obj fs =>
    cases key with
    | s k =>
      simp [setKeyV, setProp] at h
      subst h
      simp only [getKey, getProp] at hget
      simp only [Except.ok.injEq] at hget
      have hf := getD_undef_some _ x hget hx
      simp only [mapMembers]
      rw [map_val_setKey F fs k x x' hf hF]
    | i n =>
      simp [setKeyV, setIdxV] at h
      subst h
      simp only [getKey, getIdx] at hget
      simp only [Except.ok.injEq] at hget
      have hf := getD_undef_some _ x hget hx
      simp only [mapMembers]
      rw [map_val_setKey F fs (toString n) x x' hf hF]
  | arr xs =>
    cases key with
    | s k =>
      simp only [setKeyV, setProp] at h
      cases hk : jsIndex? k with
      | none => rw [hk] at h; simp at h
      | some i =>
        rw [hk] at h
        simp at h
        subst h
        simp only [getKey, getProp, hk] at hget
        simp only [Except.ok.injEq] at hget
        have hf := getD_undef_some _ x hget hx
        simp only [mapMembers]
        rw [map_setIdx F xs i x x' hf hF]
    | i n =>
      simp [setKeyV, setIdxV] at h
      subst h
      simp only [getKey, getIdx] at hget
      simp only [Except.ok.injEq] at hget
      have hf := getD_undef_some _ x hget hx
      simp only [mapMembers]
      rw [map_setIdx F xs n x x' hf hF]
  | null => cases key <;> simp [setKeyV, setProp, setIdxV] at h
  | undefined => cases key <;> simp [setKeyV, setProp, setIdxV] at h
  | bool b => cases key <;> simp [setKeyV, setProp, setIdxV] at h
  | num n => cases key <;> simp [setKeyV, setProp, setIdxV] at h
  | str st => cases key <;> simp [setKeyV, setProp, setIdxV] at h

theorem scrubSchema_setProp (sch sch' x x' : JValue)
    (h : setProp sch "paths" x' = .ok sch') (hget : getProp sch "paths" = .ok x)
    (hx : x ≠ .undefined) (hF : scrubPaths x' = scrubPaths x) :
    scrubSchema sch' = scrubSchema sch := by
  cases sch with
  | obj fs =>
    simp [setProp] at h
    subst h
    have hf := getField_of_getProp_obj fs "paths" x hget hx
    simp only [scrubSchema]
    rw [map_if_setKey scrubPaths fs "paths" x x' hf hF]
  | arr xs =>
    have : jsIndex? "paths" = none := by decide
    simp [setProp, this] at h
  | null => simp [setProp] at h
  | undefined => simp [setProp] at h
  | bool b => simp [setProp] at h
  | num n => simp [setProp] at h
  | str st => simp [setProp] at h

theorem enrichMethod_scrub (gen : Generator) (ts : List String) (p m : JKey)
    (sch sch' : JValue) (h : enrichMethod gen ts p sch m = .ok sch') :
    scrubSchema sch' = scrubSchema sch := by
  rcases enrichMethod_decomp gen ts p m sch sch' h with ⟨op, op1, hget, hop, hset⟩
  rcases getOpAt_decomp sch op p m hget with ⟨paths, item, h1, h2, h3⟩
  rcases setOpAt_decomp sch sch' op1 p m hset with
    ⟨paths', item', item1, paths1, h1', h2', h3', h4', h5'⟩
  have hpeq : paths = paths' := by
    rw [h1] at h1'
    exact (Except.ok.injEq _ _).mp h1'
  subst hpeq
  have hieq : item = item' := by
    rw [h2] at h2'
    exact (Except.ok.injEq _ _).mp h2'
  subst hieq
  rcases enrichOp_ok_obj _ op op1 hop with ⟨fsop, hopobj⟩
  subst hopobj
  rcases enrichOp_obj_frame _ fsop op1 hop with ⟨fs1, hop1obj, hfil⟩
  have hsop : scrubOp op1 = scrubOp (.obj fsop) := by
    rw [hop1obj]
    simp only [scrubOp]
    rw [hfil]
  have hitemc : isContainer item := setKeyV_ok_container item item1 op1 m h3'
  have hitemscrub : mapMembers scrubOp item1 = mapMembers scrubOp item :=
    scrub_setKeyV scrubOp item item1 (.obj fsop) op1 m h3' h3
      (fun hh => JValue.noConfusion hh) hsop
  have hpathsc : isContainer paths := setKeyV_ok_container paths paths1 item1 p h4'
  have hpathsscrub : mapMembers scrubItem paths1 = mapMembers scrubItem paths :=
    scrub_setKeyV scrubItem paths paths1 item item1 p h4' h2
      (isContainer_ne_undef item hitemc) hitemscrub
  exact scrubSchema_setProp sch sch' paths paths1 h5' h1
    (isContainer_ne_undef paths hpathsc) hpathsscrub

theorem foldE_method_scrub (gen : Generator) (ts : List String) (p : JKey) :
    ∀ (ms : List JKey) (sch sch' : JValue),
    foldE (enrichMethod gen ts p) sch ms = .ok sch' →
    scrubSchema sch' = scrubSchema sch := by
  intro ms
  induction ms with
  | nil =>
    intro sch sch' h
    simp [foldE] at h
    rw [h]
  | cons m0 rest ih =>
    intro sch sch' h
    simp only [foldE] at h
    cases h0 : enrichMethod gen ts p sch m0 with
    | error e => rw [h0] at h; simp at h
    | ok sch1 =>
      rw [h0] at h
      simp only at h
      exact (ih sch1 sch' h).trans (enrichMethod_scrub gen ts p m0 sch sch1 h0)

theorem enrichPath_scrub (gen : Generator) (ts : List String) (sch sch' : JValue) (p : JKey)
    (h : enrichPath gen ts sch p = .ok sch') : scrubSchema sch' = scrubSchema sch := by
  rcases enrichPath_decomp gen ts sch sch' p h with ⟨paths, item, _, _, hfold⟩
  exact foldE_method_scrub gen ts p (forInKeys item) sch sch' hfold

theorem foldE_path_scrub (gen : Generator) (ts : List String) :
    ∀ (ps : List JKey) (sch sch' : JValue),
    foldE (enrichPath gen ts) sch ps = .ok sch' →
    scrubSchema sch' = scrubSchema sch := by
  intro ps
  induction ps with
  | nil =>
    intro sch sch' h
    simp [foldE] at h
    rw [h]
  | cons p0 rest ih =>
    intro sch sch' h
    simp only [foldE] at h
    cases h0 : enrichPath gen ts sch p0 with
    | error e => rw [h0] at h; simp at h
    | ok sch1 =>
      rw [h0] at h
      simp only at h
      exact (ih sch1 sch' h).trans (enrichPath_scrub gen ts sch sch1 p0 h0)

theorem enrichSchema_scrub (gen : Generator) (ts : List String) (s s' : JValue)
    (h : enrichSchema gen ts s = .ok s') : scrubSchema s' = scrubSchema s := by
  rcases enrichSchema_decomp gen ts s s' h with ⟨_, paths, _, hfold⟩
  exact foldE_path_scrub gen ts (forInKeys paths) s s' hfold

theorem enrichSchema_slot_preserve (gen : Generator) (ts : List String)
    (P : JValue → Prop)
    (hP : ∀ snips op op', P op → enrichOp snips op = .ok op' → P op')
    (s s' : JValue) (h : enrichSchema gen ts s = .ok s') (p m : JKey)
    (hp : p ∈ forInKeys (pathsOf s)) (hm : m ∈ forInKeys (itemAt s p))
    (hs : SlotPred P p m s) : SlotPred P p m s' := by
  rcases enrichSchema_decomp gen ts s s' h with ⟨_, paths, h2, hfold⟩
  have hpe := pathsOf_eq s paths h2
  have hps : ∀ p'', p'' ∈ forInKeys paths → p'' ∈ forInKeys (pathsOf s) := by
    intro p'' hmem
    rw [hpe]
    exact hmem
  rcases foldE_path_spec gen ts P hP (forInKeys paths) s s' hfold hps with ⟨_, _, _, hslot⟩
  exact hslot p m hp hm hs

theorem writeSnippets_arr_shape (snips : List Snippet) :
    ∀ (i : Nat) (op op' : JValue) (xs : List JValue),
    writeSnippets snips i op = .ok op' →
    getProp op "x-code-samples" = .ok (.arr xs) →
    ∃ xs', getProp op' "x-code-samples" = .ok (.arr xs') ∧
      xs.length ≤ xs'.length ∧
      (∀ (j : Nat) (e : JValue), xs[j]? = some e → truthy e = true → xs'[j]? = some e) := by
  induction snips with
  | nil =>
    intro i op op' xs h hv
    simp [writeSnippets] at h
    subst h
    exact ⟨xs, hv, Nat.le_refl _, fun j e hj _ => hj⟩
  | cons snip rest ih =>
    intro i op op' xs h hv
    simp only [writeSnippets] at h
    rw [hv] at h
    simp only at h
    simp only [getIdx] at h
    by_cases hti : truthy (xs[i]?.getD .undefined)
    · rw [if_pos hti] at h
      exact ih (i + 1) op op' xs h hv
    · rw [if_neg hti] at h
      simp only [setIdxV] at h
      rcases truthy_getProp_obj op (.arr xs) hv (by simp [truthy]) with ⟨fs, hop, hf⟩
      subst hop
      simp only [setProp] at h
      have hv1 : getProp (.obj (setKey fs "x-code-samples" (.arr (setIdx xs i (sampleOf snip)))))
          "x-code-samples" = .ok (.arr (setIdx xs i (sampleOf snip))) := by
        simp [getProp, getField_setKey_self]
      rcases ih (i + 1) _ op' (setIdx xs i (sampleOf snip)) h hv1 with ⟨xs', h1, h2, h3⟩
      refine ⟨xs', h1, Nat.le_trans (length_le_setIdx xs i (sampleOf snip)) h2, ?_⟩
      intro j e hj hte
      have hij : j ≠ i := by
        intro hji
        subst hji
        rw [hj] at hti
        simp at hti
        simp [hte] at hti
      have hjlen : j < xs.length := by
        by_contra hge
        rw [List.getElem?_eq_none (Nat.le_of_not_lt hge)] at hj
        exact Option.noConfusion hj
      refine h3 j e ?_ hte
      rw [get_setIdx_lt xs i j (sampleOf snip) hjlen hij]
      exact hj

theorem enrichOp_arr_shape (snips : List Snippet) (op op' : JValue) (xs : List JValue)
    (hv : getProp op "x-code-samples" = .ok (.arr xs))
    (h : enrichOp snips op = .ok op') :
    ∃ xs', getProp op' "x-code-samples" = .ok (.arr xs') ∧
      xs.length ≤ xs'.length ∧
      (∀ (j : Nat) (e : JValue), xs[j]? = some e → truthy e = true → xs'[j]? = some e) := by
  unfold enrichOp at h
  rw [hv] at h
  simp only at h
  rw [if_pos (by simp [truthy])] at h
  exact writeSnippets_arr_shape snips 0 op op' xs h hv

/-! ## The claims -/

/-- C2: for every document that does not have a `paths` key (the
`hasOwnProperty` check reports `false`), enrichment fails with the
structural `PropertyError` naming the missing property `"paths"`, whose
message is `"Non-existent property: paths"`; this holds for every
generator and Target Set, so no operation is consulted or touched before
the failure. -/
theorem c2_missing_paths (gen : Generator) (ts : List String) (s : JValue)
    (h : hasPathsProperty s = .ok false) :
    enrichSchema gen ts s = .error (.propertyError "paths") ∧
    errMessage (.propertyError "paths") = "Non-existent property: paths" := by
  constructor
  · unfold enrichSchema
    rw [h]
  · rfl

/-- Witness for C2 at a concrete pathless document. -/
theorem c2_missing_paths_witness :
    enrichSchema genNone [] (.obj [("openapi", .str "3.0.0")]) =
      .error (.propertyError "paths") ∧
    errMessage (.propertyError "paths") = "Non-existent property: paths" :=
  c2_missing_paths genNone [] (.obj [("openapi", .str "3.0.0")]) (by rfl)

/-- C5: target validation.  The vocabulary has 22 entries.  If the first
target token is not the sentinel `"default"`, then (a) whenever some
token of the checked list (the arguments from position 4 on, minus a
trailing verbose flag) is not in the vocabulary, `configureTargets` exits
with code 1 and a diagnostic naming an offending token — concretely, the
first invalid token found; and (b) the whole pipeline then stops with
that diagnostic and an empty event trace: no file is read, unlinked or
written and the document is untouched.  If the first token is the
sentinel `"default"`, per-token validation is bypassed and the built-in
default set is selected. -/
theorem c5_target_validation :
    validTargets.length = 22 ∧
    (∀ (argv : List String) (isVerbose : Bool) (t0 : String),
      argv.get? 4 = some t0 → t0 ≠ "default" →
      (∃ t, t ∈ (if isVerbose then (argv.drop 4).dropLast else argv.drop 4) ∧
        validTargets.contains t = false) →
      ∃ t, t ∈ (if isVerbose then (argv.drop 4).dropLast else argv.drop 4) ∧
        validTargets.contains t = false ∧
        configureTargets argv isVerbose = .error (1, invalidTargetMsg t)) ∧
    (∀ (argv : List String) (isVerbose : Bool) (t0 : String) (t : String),
      argv.get? 4 = some t0 → t0 ≠ "default" →
      (if isVerbose then (argv.drop 4).dropLast else argv.drop 4).find?
        (fun t => !(validTargets.contains t)) = some t →
      configureTargets argv isVerbose = .error (1, invalidTargetMsg t)) ∧
    (∀ (argv : List String) (isVerbose : Bool),
      argv.get? 4 = some "default" →
      configureTargets argv isVerbose = .ok (targets, false)) ∧
    (∀ (argv : List String) (outputExists : Bool) (rawDoc : JValue) (gen : Generator)
      (hashOf : JValue → String) (isVerbose : Bool) (c : Nat) (msg : String),
      checkParameters argv = .ok isVerbose →
      configureTargets argv isVerbose = .error (c, msg) →
      processInputs argv outputExists rawDoc gen hashOf = .error (c, msg, [])) := by
  have hlen : ∀ (argv : List String) (t0 : String), argv.get? 4 = some t0 →
      argv.length > 4 := by
    intro argv t0 h0
    by_contra hle
    rw [List.get?_eq_none.mpr (Nat.le_of_not_lt hle)] at h0
    exact Option.noConfusion h0
  have hcfg : ∀ (argv : List String) (isVerbose : Bool) (t0 : String) (t : String),
      argv.get? 4 = some t0 → t0 ≠ "default" →
      (if isVerbose then (argv.drop 4).dropLast else argv.drop 4).find?
        (fun t => !(validTargets.contains t)) = some t →
      configureTargets argv isVerbose = .error (1, invalidTargetMsg t) := by
    intro argv isVerbose t0 t h0 ht0 hfind
    unfold configureTargets
    rw [if_pos (hlen argv t0 h0)]
    rw [if_neg (by
      intro hh
      rw [h0] at hh
      exact ht0 (Option.some.injEq _ _ ▸ hh))]
    simp only
    rw [hfind]
  refine ⟨by decide, ?_, hcfg, ?_, ?_⟩
  · intro argv isVerbose t0 h0 ht0 hbad
    cases hfind : (if isVerbose then (argv.drop 4).dropLast else argv.drop 4).find?
        (fun t => !(validTargets.contains t)) with
    | none =>
      exfalso
      rcases hbad with ⟨t, hmem, hinv⟩
      have hmem2 := List.find?_eq_none.mp hfind t hmem
      simp at hmem2 hinv
      exact hinv hmem2
    | some t =>
      have hmem := List.mem_of_find?_eq_some hfind
      have hpred := List.find?_some hfind
      simp at hpred
      exact ⟨t, hmem, by simp [hpred], hcfg argv isVerbose t0 t h0 ht0 hfind⟩
  · intro argv isVerbose h0
    unfold configureTargets
    rw [if_pos (hlen argv "default" h0)]
    rw [if_pos h0]
  · intro argv outputExists rawDoc gen hashOf isVerbose c msg hcp hct
    unfold processInputs
    rw [hcp]
    simp only
    rw [hct]

/-- Witness for C5 at a concrete invocation with an invalid target, and
the sentinel bypass at a concrete invocation. -/
theorem c5_target_validation_witness :
    configureTargets ["node", "parse.js", "spec.json", "out.json", "not_a_language"] false =
      .error (1, invalidTargetMsg "not_a_language") ∧
    processInputs ["node", "parse.js", "spec.json", "out.json", "not_a_language"] false
      docPets genNone (fun _ => "h") = .error (1, invalidTargetMsg "not_a_language", []) ∧
    configureTargets ["node", "parse.js", "spec.json", "out.json", "default", "junk"] true =
      .ok (targets, false) :=
  ⟨c5_target_validation.2.2.1 ["node", "parse.js", "spec.json", "out.json", "not_a_language"]
      false "not_a_language" "not_a_language" (by rfl) (by decide) (by rfl),
   c5_target_validation.2.2.2.2 ["node", "parse.js", "spec.json", "out.json", "not_a_language"]
      false docPets genNone (fun _ => "h") false 1 (invalidTargetMsg "not_a_language") (by rfl)
      (c5_target_validation.2.2.1 ["node", "parse.js", "spec.json", "out.json", "not_a_language"]
        false "not_a_language" "not_a_language" (by rfl) (by decide) (by rfl)),
   c5_target_validation.2.2.2.1 ["node", "parse.js", "spec.json", "out.json", "default", "junk"]
      true (by rfl)⟩

/-- C6: the spec's end-to-end example — enriching
`{ "paths": { "/pets": { "get": {} } } }` with Target Set
`["shell_curl"]` under a generator returning the single snippet
`{title: "shell_curl", content: "curl ..."}` yields exactly the document
with `x-code-samples: [{lang: "shell_curl", source: "curl ..."}]` on the
operation: the snippet's title becomes `lang`, its content `source`. -/
theorem c6_end_to_end :
    enrichSchema genShell ["shell_curl"] docPets = .ok docPetsOut ∧
    docPetsOut = .obj [("paths", .obj [("/pets", .obj [("get", .obj [("x-code-samples",
      .arr [sampleOf { title := "shell_curl", content := "curl ..." }])])])])] := by
  constructor
  · rfl
  · rfl

/-- C7: with no caller-supplied targets (exactly the two file arguments),
the run does not fail: `configureTargets` succeeds, the warning flag is
reported, and the Target Set is the built-in 7-element default list in
its fixed order. -/
theorem c7_default_targets (argv : List String) (isVerbose : Bool)
    (h : argv.length = 4) :
    configureTargets argv isVerbose = .ok (targets, true) ∧
    targets = ["php_curl", "javascript_xhr", "java_okhttp", "python_requests",
      "python_python3", "go_native", "shell_curl"] ∧
    targets.length = 7 := by
  refine ⟨?_, rfl, rfl⟩
  unfold configureTargets
  rw [if_neg (by omega)]

/-- Witness for C7 at a concrete four-argument invocation. -/
theorem c7_default_targets_witness :
    configureTargets ["node", "parse.js", "spec.json", "out.json"] false =
      .ok (targets, true) ∧
    targets = ["php_curl", "javascript_xhr", "java_okhttp", "python_requests",
      "python_python3", "go_native", "shell_curl"] ∧
    targets.length = 7 :=
  c7_default_targets ["node", "parse.js", "spec.json", "out.json"] false (by rfl)

/-- C8: for every requested output filename that does not end in `json`,
once the argument and target checks pass, the pipeline stops with exit
code 1 and the output-format diagnostic, with an empty event trace: no
input file has been read and nothing has been unlinked, enriched or
written. -/
theorem c8_output_gate (argv : List String) (outputExists : Bool) (rawDoc : JValue)
    (gen : Generator) (hashOf : JValue → String) (isVerbose : Bool)
    (tgts : List String) (warned : Bool)
    (hcp : checkParameters argv = .ok isVerbose)
    (hct : configureTargets argv isVerbose = .ok (tgts, warned))
    (hjson : strEndsWith (argv.getD 3 "") "json" = false) :
    processInputs argv outputExists rawDoc gen hashOf =
      .error (1, "Only JSON format is supported for output.", []) := by
  unfold processInputs
  rw [hcp]
  simp only
  rw [hct]
  simp only
  unfold checkOutputFileType
  rw [List.getD_eq_getElem?_getD] at hjson
  rw [if_neg (by simp [hjson])]

/-- Witness for C8 at the spec's concrete example `result.yaml`. -/
theorem c8_output_gate_witness :
    processInputs ["node", "parse.js", "spec.json", "result.yaml"] false docPets genNone
      (fun _ => "h") = .error (1, "Only JSON format is supported for output.", []) :=
  c8_output_gate ["node", "parse.js", "spec.json", "result.yaml"] false docPets genNone
    (fun _ => "h") false targets true (by rfl) (by rfl) (by decide)

/-- C1 counterexample: the positional skip is a truthiness check, not an
unconditional presence check.  In `docNullEntry` the operation's
`x-code-samples[0]` is occupied by the entry `null`; enrichment does not
leave it untouched — it overwrites it with the generated sample, so the
claim "leave the existing entry unchanged regardless of its content"
fails at this input. -/
theorem c1_counterexample :
    enrichSchema genShell ["shell_curl"] docNullEntry = .ok docNullEntryOut ∧
    docNullEntryOut ≠ docNullEntry := by
  constructor
  · rfl
  · simp [docNullEntryOut, docNullEntry]

/-- C1 amended: for every document with a `paths` mapping and every
operation in it, if the operation's `x-code-samples` sequence has a
truthy entry at index `i`, enrichment leaves that entry unchanged
regardless of what the generator produced at index `i` (a falsy entry
such as `null` is instead overwritten). -/
theorem c1_amended (gen : Generator) (ts : List String) (s s' op : JValue)
    (p m : JKey) (xs : List JValue) (i : Nat) (e : JValue)
    (h : enrichSchema gen ts s = .ok s')
    (hp : p ∈ forInKeys (pathsOf s)) (hm : m ∈ forInKeys (itemAt s p))
    (hop : getOpAt s p m = .ok op)
    (hxcs : getProp op "x-code-samples" = .ok (.arr xs))
    (he : xs[i]? = some e) (hte : truthy e = true) :
    ∃ op' xs', getOpAt s' p m = .ok op' ∧
      getProp op' "x-code-samples" = .ok (.arr xs') ∧ xs'[i]? = some e := by
  have hpres := enrichSchema_slot_preserve gen ts
    (fun op'' => ∃ ys, getProp op'' "x-code-samples" = .ok (.arr ys) ∧ ys[i]? = some e)
    (by
      intro snips op1 op2 hP1 henr
      rcases hP1 with ⟨ys, hys, hyi⟩
      rcases enrichOp_arr_preserve snips op1 op2 ys i e hys hyi hte henr with
        ⟨ys', h1, h2, _⟩
      exact ⟨ys', h1, h2⟩)
    s s' h p m hp hm ⟨op, hop, xs, hxcs, he⟩
  rcases hpres with ⟨op', hop', ys', hys', hyi'⟩
  exact ⟨op', ys', hop', hys', hyi'⟩

/-- Witness for C1 (amended) at a concrete document whose operation has a
truthy pre-existing entry at index 0; the entry survives enrichment. -/
theorem c1_amended_witness :
    ∃ op' xs',
      getOpAt (.obj [("paths", .obj [("/pets", .obj [("get", .obj [("x-code-samples",
        .arr [.str "keep"])])])])]) (.s "/pets") (.s "get") = .ok op' ∧
      getProp op' "x-code-samples" = .ok (.arr xs') ∧ xs'[0]? = some (.str "keep") :=
  c1_amended genShell ["shell_curl"]
    (.obj [("paths", .obj [("/pets", .obj [("get", .obj [("x-code-samples",
      .arr [.str "keep"])])])])])
    (.obj [("paths", .obj [("/pets", .obj [("get", .obj [("x-code-samples",
      .arr [.str "keep"])])])])])
    (.obj [("x-code-samples", .arr [.str "keep"])])
    (.s "/pets") (.s "get") [.str "keep"] 0 (.str "keep")
    (by rfl) (by decide) (by decide) (by rfl) (by rfl) (by rfl) (by rfl)

/-- C3 counterexample: for a generator that is a pure (deterministic)
function of its inputs but inspects the document — `genProbe` emits one
snippet exactly when the operation already has an `x-code-samples`
member — the second enrichment run is not a no-op: the first run on
`docEmptyOp` only initializes the empty sequence, and the second run
writes a sample into it, producing a different document. -/
theorem c3_counterexample :
    enrichSchema genProbe [] docEmptyOp = .ok docEmptyXcs ∧
    enrichSchema genProbe [] docEmptyXcs = .ok docOneSample ∧
    docOneSample ≠ docEmptyXcs := by
  refine ⟨rfl, rfl, ?_⟩
  simp [docOneSample, docEmptyXcs]

/-- C3 amended: if additionally the generator's output is insensitive to
the document argument (so enrichment's own mutations cannot change what
it generates), then re-running enrichment with the identical Target Set
on the engine's prior output is a no-op: every generated index is
already occupied by a truthy sample, nothing is written, and the second
run returns the first run's output unchanged. -/
theorem c3_amended (gen : Generator) (ts : List String) (s s₁ : JValue)
    (Hgen : ∀ (sA sB : JValue) (a b : String), gen sA a b ts = gen sB a b ts)
    (h : enrichSchema gen ts s = .ok s₁) :
    enrichSchema gen ts s₁ = .ok s₁ := by
  have Hgen' : ∀ (sA : JValue) (a b : String), gen sA a b ts = gen .null a b ts :=
    fun sA a b => Hgen sA .null a b
  rcases enrichSchema_establish gen ts Hgen' s s₁ h with ⟨h1, hsat⟩
  exact enrichSchema_fix gen ts Hgen' s₁ h1 hsat

/-- Witness for C3 (amended): `genShell` ignores the document, and
re-enriching the end-to-end example's output returns it unchanged. -/
theorem c3_amended_witness :
    enrichSchema genShell ["shell_curl"] docPetsOut = .ok docPetsOut :=
  c3_amended genShell ["shell_curl"] docPets docPetsOut
    (fun _ _ _ _ => rfl) (by rfl)

/-- C4 counterexample: an operation whose `x-code-samples` field exists
but holds `null` does not keep it: enrichment resets the field to `[]`
(even with a generator producing no snippets), so "if it already exists
it is never reset or cleared" fails at this input. -/
theorem c4_counterexample :
    enrichSchema genNone [] docNullField = .ok docNullFieldOut ∧
    docNullFieldOut ≠ docNullField := by
  constructor
  · rfl
  · simp [docNullFieldOut, docNullField]

/-- C4 amended: for every operation visited during enrichment, if the
operation has no `x-code-samples` field it is initialized to the empty
sequence before samples are written; and if the field already exists
with a truthy array value, the array is never reset or cleared — its
length never decreases and every truthy pre-existing entry is preserved
as-is (falsy members, like a `null` field value or a `null` entry, are
instead replaced). -/
theorem c4_amended :
    (∀ (snips : List Snippet) (fs : List (String × JValue)),
      getField fs "x-code-samples" = none →
      enrichOp snips (.obj fs) =
        writeSnippets snips 0 (.obj (setKey fs "x-code-samples" (.arr [])))) ∧
    (∀ (snips : List Snippet) (op op' : JValue) (xs : List JValue),
      getProp op "x-code-samples" = .ok (.arr xs) →
      enrichOp snips op = .ok op' →
      ∃ xs', getProp op' "x-code-samples" = .ok (.arr xs') ∧ xs.length ≤ xs'.length ∧
        (∀ (i : Nat) (e : JValue), xs[i]? = some e → truthy e = true →
          xs'[i]? = some e)) := by
  constructor
  · intro snips fs hf
    exact enrichOp_falsy_init snips fs .undefined (by rw [hf]; rfl) (by rfl)
  · intro snips op op' xs hv h
    exact enrichOp_arr_shape snips op op' xs hv h

/-- Witness for C4 (amended) at concrete operations: a missing field is
initialized to `[]`, and an existing truthy entry survives enrichment. -/
theorem c4_amended_witness :
    enrichOp [] (.obj [("summary", .str "s")]) =
      writeSnippets [] 0 (.obj (setKey [("summary", .str "s")] "x-code-samples" (.arr []))) ∧
    (∃ xs', getProp (.obj [("x-code-samples", .arr [.str "keep"])]) "x-code-samples" =
        .ok (.arr xs') ∧ ([JValue.str "keep"] : List JValue).length ≤ xs'.length ∧
      (∀ (i : Nat) (e : JValue), ([JValue.str "keep"] : List JValue)[i]? = some e →
        truthy e = true → xs'[i]? = some e)) :=
  ⟨c4_amended.1 [] [("summary", .str "s")] (by rfl),
   c4_amended.2 [] (.obj [("x-code-samples", .arr [.str "keep"])])
     (.obj [("x-code-samples", .arr [.str "keep"])]) [.str "keep"] (by rfl) (by rfl)⟩

/-- C9: frame condition — a successful enrichment modifies only the
`x-code-samples` fields of operation objects.  Erasing those fields
(`scrubSchema`) from the result gives back exactly the erasure of the
input: every other operation field, every key of the paths mapping and
of each path item, and everything outside the `paths` subtree are
unchanged, and the engine returns the (mutated) document itself. -/
theorem c9_frame (gen : Generator) (ts : List String) (s s' : JValue)
    (h : enrichSchema gen ts s = .ok s') : scrubSchema s' = scrubSchema s :=
  enrichSchema_scrub gen ts s s' h

/-- Witness for C9 at the end-to-end example. -/
theorem c9_frame_witness :
    scrubSchema docPetsOut = scrubSchema docPets :=
  c9_frame genShell ["shell_curl"] docPets docPetsOut (by rfl)

/-- C10: the existence checks are truthiness checks.  (a) If an
operation object's `x-code-samples` field exists but holds a falsy
value, enrichment replaces it with a fresh empty sequence before the
snippet loop runs; (b) if the entry at a generated index exists but is
falsy (e.g. `null`), enrichment overwrites it with the generated sample
instead of skipping it. -/
theorem c10_truthiness :
    (∀ (snips : List Snippet) (fs : List (String × JValue)) (v : JValue),
      getField fs "x-code-samples" = some v → truthy v = false →
      enrichOp snips (.obj fs) =
        writeSnippets snips 0 (.obj (setKey fs "x-code-samples" (.arr [])))) ∧
    (∀ (snips : List Snippet) (op op' : JValue) (xs : List JValue) (i : Nat)
      (e : JValue) (snip : Snippet),
      getProp op "x-code-samples" = .ok (.arr xs) →
      xs[i]? = some e → truthy e = false → snips[i]? = some snip →
      enrichOp snips op = .ok op' →
      ∃ xs', getProp op' "x-code-samples" = .ok (.arr xs') ∧
        xs'[i]? = some (sampleOf snip)) := by
  refine ⟨?_, ?_⟩
  · intro snips fs v hf ht
    exact enrichOp_falsy_init snips fs v (by rw [hf]; rfl) ht
  · intro snips op op' xs i e snip hv hj hte hsn h
    exact enrichOp_arr_overwrite snips op op' xs i e snip hv hj hte hsn h

/-- Witness for C10 at concrete operations: a `null`-valued
`x-code-samples` field is replaced by `[]`, and a `null` entry at a
generated index is overwritten by the generated sample. -/
theorem c10_truthiness_witness :
    enrichOp [] (.obj [("x-code-samples", JValue.null)]) =
      writeSnippets [] 0 (.obj (setKey [("x-code-samples", JValue.null)]
        "x-code-samples" (.arr []))) ∧
    (∃ xs', getProp (.obj [("x-code-samples",
        .arr [sampleOf { title := "shell_curl", content := "curl ..." }])])
        "x-code-samples" = .ok (.arr xs') ∧
      xs'[0]? = some (sampleOf { title := "shell_curl", content := "curl ..." })) :=
  ⟨c10_truthiness.1 [] [("x-code-samples", JValue.null)] JValue.null (by rfl) (by rfl),
   c10_truthiness.2 [{ title := "shell_curl", content := "curl ..." }]
     (.obj [("x-code-samples", .arr [JValue.null])])
     (.obj [("x-code-samples",
       .arr [sampleOf { title := "shell_curl", content := "curl ..." }])])
     [JValue.null] 0 JValue.null { title := "shell_curl", content := "curl ..." }
     (by rfl) (by rfl) (by rfl) (by rfl) (by rfl)⟩
